import Mathlib

/-!
Verification of the `kvs-rs` key/value store against its specification.

The development shallowly embeds the two storage engines of the repository:

* the record codec, recovery scan, segment-file listing and the
  multi-segment `DataWriter` of `src/engines/kvs/store.rs`;
* the single-file `KvStore` engine of `src/engines/kvs.rs`;
* the request-processing loop of `src/bin/kvs-server.rs`.

Byte strings are modelled as `List Nat` with every element below 256.
Machine integers are modelled as `Nat`/`Int` with explicit bounds.
Fallible operations return `Except Error` or a `state × Option Error` pair;
the pair form mirrors Rust's `?` operator leaving earlier mutations in
place when a later step fails.
-/

namespace Kvs

/-- Error kinds of the crate's `Error` enum, restricted to those reachable
from the embedded code paths: `Io` (failed `read_exact`, missing file),
`Utf8` (`String::from_utf8` failure), `Json` (serde failure in the
single-file engine) and `NonexistentKey`. -/
inductive Error where
  | Io
  | Utf8
  | Json
  | NonexistentKey
deriving DecidableEq, Repr

instance {ε α : Type} [DecidableEq ε] [DecidableEq α] :
    DecidableEq (Except ε α) := fun x y =>
  match x, y with
  | .ok a, .ok b =>
    if h : a = b then isTrue (by rw [h])
    else isFalse (by intro hc; cases hc; exact h rfl)
  | .error a, .error b =>
    if h : a = b then isTrue (by rw [h])
    else isFalse (by intro hc; cases hc; exact h rfl)
  | .ok _, .error _ => isFalse (by intro hc; cases hc)
  | .error _, .ok _ => isFalse (by intro hc; cases hc)

/-! ## Association lists

`HashMap`/`SkipMap` indexes are modelled as association lists with
overwrite-on-insert semantics and no duplicate keys (the `Nodup`
invariant is carried by the theorems that need it). -/

section Assoc

variable {K V : Type} [DecidableEq K]

/-- Lookup in an association list: the value at the first matching key. -/
def lookupA : List (K × V) → K → Option V
  | [], _ => none
  | (a, b) :: r, k => if a = k then some b else lookupA r k

/-- Insert with overwrite: replaces the first binding of the key in place,
appends a new binding otherwise. -/
def insertA : List (K × V) → K → V → List (K × V)
  | [], k, v => [(k, v)]
  | (a, b) :: r, k, v => if a = k then (k, v) :: r else (a, b) :: insertA r k v

/-- Erase the first binding of a key. -/
def eraseA : List (K × V) → K → List (K × V)
  | [], _ => []
  | (a, b) :: r, k => if a = k then r else (a, b) :: eraseA r k

/-- Key containment, mirroring `contains_key`. -/
def containsA (l : List (K × V)) (k : K) : Bool := (lookupA l k).isSome

theorem lookupA_insertA_self (l : List (K × V)) (k : K) (v : V) :
    lookupA (insertA l k v) k = some v := by
  induction l with
  | nil => simp [insertA, lookupA]
  | cons p r ih =>
    obtain ⟨a, b⟩ := p
    by_cases h : a = k
    · simp [insertA, lookupA, h]
    · simp [insertA, lookupA, h, ih]

theorem lookupA_insertA_ne (l : List (K × V)) (k k' : K) (v : V) (h : k ≠ k') :
    lookupA (insertA l k v) k' = lookupA l k' := by
  induction l with
  | nil => simp [insertA, lookupA, h]
  | cons p r ih =>
    obtain ⟨a, b⟩ := p
    by_cases ha : a = k
    · subst ha
      simp [insertA, lookupA, h]
    · by_cases ha' : a = k'
      · subst ha'
        simp [insertA, lookupA, ha]
      · simp [insertA, lookupA, ha, ha', ih]

theorem lookupA_eraseA_self (l : List (K × V)) (k : K)
    (h : (l.map Prod.fst).Nodup) : lookupA (eraseA l k) k = none := by
  induction l with
  | nil => simp [eraseA, lookupA]
  | cons p r ih =>
    obtain ⟨a, b⟩ := p
    simp only [List.map_cons, List.nodup_cons] at h
    by_cases ha : a = k
    · subst ha
      cases hr : lookupA r a with
      | none => simp [eraseA, hr]
      | some v =>
        exfalso
        have : a ∈ r.map Prod.fst := by
          clear h ih
          induction r with
          | nil => simp [lookupA] at hr
          | cons q t iht =>
            obtain ⟨c, d⟩ := q
            by_cases hc : c = a
            · simp [hc]
            · simp only [lookupA, hc, if_false] at hr
              simp [iht hr]
        exact h.1 this
    · simp [eraseA, lookupA, ha, ih h.2]

theorem lookupA_eraseA_ne (l : List (K × V)) (k k' : K) (h : k ≠ k') :
    lookupA (eraseA l k) k' = lookupA l k' := by
  induction l with
  | nil => simp [eraseA]
  | cons p r ih =>
    obtain ⟨a, b⟩ := p
    by_cases ha : a = k
    · subst ha
      simp [eraseA, lookupA, h]
    · simp [eraseA, lookupA, ha, ih]

theorem eraseA_of_not_mem (l : List (K × V)) (k : K)
    (h : lookupA l k = none) : eraseA l k = l := by
  induction l with
  | nil => rfl
  | cons p r ih =>
    obtain ⟨a, b⟩ := p
    by_cases ha : a = k
    · simp [lookupA, ha] at h
    · simp only [lookupA, ha, if_false] at h
      simp [eraseA, ha, ih h]

theorem map_fst_insertA (l : List (K × V)) (k : K) (v : V)
    (h : lookupA l k ≠ none) :
    (insertA l k v).map Prod.fst = l.map Prod.fst := by
  induction l with
  | nil => simp [lookupA] at h
  | cons p r ih =>
    obtain ⟨a, b⟩ := p
    by_cases ha : a = k
    · simp [insertA, ha]
    · simp only [lookupA, ha, if_false] at h
      simp [insertA, ha, ih h]

theorem map_fst_insertA_new (l : List (K × V)) (k : K) (v : V)
    (h : lookupA l k = none) :
    (insertA l k v).map Prod.fst = l.map Prod.fst ++ [k] := by
  induction l with
  | nil => simp [insertA]
  | cons p r ih =>
    obtain ⟨a, b⟩ := p
    by_cases ha : a = k
    · simp [lookupA, ha] at h
    · simp only [lookupA, ha, if_false] at h
      simp [insertA, ha, ih h]

theorem nodup_insertA (l : List (K × V)) (k : K) (v : V)
    (h : (l.map Prod.fst).Nodup) : ((insertA l k v).map Prod.fst).Nodup := by
  cases hl : lookupA l k with
  | none =>
    rw [map_fst_insertA_new l k v hl]
    have hk : k ∉ l.map Prod.fst := by
      intro hmem
      clear h
      induction l with
      | nil => simp at hmem
      | cons p r ih =>
        obtain ⟨a, b⟩ := p
        by_cases ha : a = k
        · simp [lookupA, ha] at hl
        · simp only [lookupA, ha, if_false] at hl
          simp only [List.map_cons, List.mem_cons] at hmem
          rcases hmem with h1 | h2
          · exact ha h1.symm
          · exact ih hl h2
    simp [List.nodup_append, hk, h]
  | some w =>
    rw [map_fst_insertA l k v (by simp [hl])]
    exact h

theorem nodup_eraseA (l : List (K × V)) (k : K)
    (h : (l.map Prod.fst).Nodup) : ((eraseA l k).map Prod.fst).Nodup := by
  induction l with
  | nil => simp [eraseA]
  | cons p r ih =>
    obtain ⟨a, b⟩ := p
    simp only [List.map_cons, List.nodup_cons] at h
    by_cases ha : a = k
    · simpa [eraseA, ha] using h.2
    · have hnotin : a ∉ (eraseA r k).map Prod.fst := by
        intro hmem
        apply h.1
        clear ih h
        induction r with
        | nil => simp [eraseA] at hmem
        | cons q t iht =>
          obtain ⟨c, d⟩ := q
          by_cases hc : c = k
          · simp only [eraseA, hc, if_pos] at hmem
            simp [hmem]
          · simp only [eraseA, hc, if_false, List.map_cons, List.mem_cons] at hmem
            rcases hmem with h1 | h2
            · simp [h1]
            · simp [iht h2]
      simp [eraseA, ha, List.nodup_cons, hnotin, ih h.2]

theorem lookupA_mem (l : List (K × V)) (k : K) (v : V)
    (h : lookupA l k = some v) : (k, v) ∈ l := by
  induction l with
  | nil => simp [lookupA] at h
  | cons p r ih =>
    obtain ⟨a, b⟩ := p
    by_cases ha : a = k
    · subst ha
      simp [lookupA] at h
      simp [h]
    · simp only [lookupA, ha, if_false] at h
      simp [ih h]

theorem lookupA_foldl_eraseA (ks : List K) (l : List (K × V)) (k : K)
    (h : (l.map Prod.fst).Nodup) :
    lookupA (ks.foldl eraseA l) k =
      if k ∈ ks then none else lookupA l k := by
  induction ks generalizing l with
  | nil => simp
  | cons a ks ih =>
    simp only [List.foldl_cons]
    rw [ih (eraseA l a) (nodup_eraseA l a h)]
    by_cases hk : k ∈ ks
    · simp [hk]
    · by_cases hka : k = a
      · subst hka
        simp [hk, lookupA_eraseA_self l k h]
      · simp [hk, hka, lookupA_eraseA_ne l a k (fun he => hka he.symm)]

end Assoc

/-! ## Record codec (`append_entry` / `read_entry` in store.rs)

On-disk layout: `| timestamp (8) | key_sz (8) | value_sz (8) | key | value |`,
fixed-width integers.  The source writes native-endian bytes; the model
fixes one byte order (least significant byte first), which is the byte
order of every platform the crate targets. -/

/-- A log record: `Entry { key, value, timestamp }` with key and value as
their UTF-8 bytes.  An empty `value` is a tombstone. -/
structure CEntry where
  timestamp : Int
  key : List Nat
  value : List Nat
deriving DecidableEq, Repr

/-- The eight bytes of a 64-bit unsigned integer, least significant first
(`to_ne_bytes` of `usize`). -/
def encodeU64 (n : Nat) : List Nat :=
  [n % 256, n / 2 ^ 8 % 256, n / 2 ^ 16 % 256, n / 2 ^ 24 % 256,
   n / 2 ^ 32 % 256, n / 2 ^ 40 % 256, n / 2 ^ 48 % 256, n / 2 ^ 56 % 256]

/-- Read back a 64-bit unsigned integer from eight bytes
(`usize::from_ne_bytes`). -/
def decodeU64 : List Nat → Nat
  | [b0, b1, b2, b3, b4, b5, b6, b7] =>
      b0 + 2 ^ 8 * b1 + 2 ^ 16 * b2 + 2 ^ 24 * b3 + 2 ^ 32 * b4 +
        2 ^ 40 * b5 + 2 ^ 48 * b6 + 2 ^ 56 * b7
  | _ => 0

/-- The eight bytes of an `i64`, two's complement, least significant first
(`i64::to_ne_bytes`). -/
def encodeI64 (t : Int) : List Nat := encodeU64 ((t % (2 ^ 64 : Int)).toNat)

/-- Read back an `i64` from eight bytes (`i64::from_ne_bytes`). -/
def decodeI64 (b : List Nat) : Int :=
  let n := decodeU64 b
  if n < 2 ^ 63 then (n : Int) else (n : Int) - 2 ^ 64

theorem encodeU64_length (n : Nat) : (encodeU64 n).length = 8 := rfl

theorem decodeU64_encodeU64 (n : Nat) (h : n < 2 ^ 64) :
    decodeU64 (encodeU64 n) = n := by
  simp only [encodeU64, decodeU64]
  omega

theorem decodeU64_lt (b : List Nat) (h8 : b.length = 8)
    (hlt : ∀ x ∈ b, x < 256) : decodeU64 b < 2 ^ 64 := by
  match b, h8 with
  | [b0, b1, b2, b3, b4, b5, b6, b7], _ =>
    simp only [List.mem_cons, List.not_mem_nil, or_false, forall_eq_or_imp,
      forall_eq] at hlt
    simp only [decodeU64]
    omega

theorem encodeU64_decodeU64 (b : List Nat) (h8 : b.length = 8)
    (hlt : ∀ x ∈ b, x < 256) : encodeU64 (decodeU64 b) = b := by
  match b, h8 with
  | [b0, b1, b2, b3, b4, b5, b6, b7], _ =>
    simp only [List.mem_cons, List.not_mem_nil, or_false, forall_eq_or_imp,
      forall_eq] at hlt
    simp only [decodeU64, encodeU64, List.cons.injEq, and_true]
    refine ⟨by omega, by omega, by omega, by omega, by omega, by omega,
      by omega, by omega⟩

theorem encodeI64_length (t : Int) : (encodeI64 t).length = 8 := rfl

theorem decodeI64_encodeI64 (t : Int) (hlo : -2 ^ 63 ≤ t) (hhi : t < 2 ^ 63) :
    decodeI64 (encodeI64 t) = t := by
  have hmod : (0 : Int) ≤ t % (2 ^ 64 : Int) := Int.emod_nonneg t (by norm_num)
  have hmod2 : t % (2 ^ 64 : Int) < 2 ^ 64 := Int.emod_lt_of_pos t (by norm_num)
  have hn : ((t % (2 ^ 64 : Int)).toNat : Int) = t % (2 ^ 64 : Int) :=
    Int.toNat_of_nonneg hmod
  have hlt : (t % (2 ^ 64 : Int)).toNat < 2 ^ 64 := by omega
  simp only [decodeI64, encodeI64, decodeU64_encodeU64 _ hlt]
  have hcase : t % (2 ^ 64 : Int) = t ∨ t % (2 ^ 64 : Int) = t + 2 ^ 64 := by
    rcases le_or_lt 0 t with hpos | hneg
    · left
      exact Int.emod_eq_of_lt hpos (by omega)
    · right
      have : (t + 2 ^ 64) % (2 ^ 64 : Int) = t % (2 ^ 64 : Int) := by
        omega
      rw [← this]
      exact Int.emod_eq_of_lt (by omega) (by omega)
  rcases hcase with hc | hc <;> · simp only [hc] at hn ⊢; split <;> omega

theorem encodeI64_decodeI64 (b : List Nat) (h8 : b.length = 8)
    (hlt : ∀ x ∈ b, x < 256) : encodeI64 (decodeI64 b) = b := by
  have hn : decodeU64 b < 2 ^ 64 := decodeU64_lt b h8 hlt
  have : (decodeI64 b) % (2 ^ 64 : Int) = (decodeU64 b : Int) := by
    simp only [decodeI64]
    split
    · exact Int.emod_eq_of_lt (by omega) (by exact_mod_cast hn)
    · have : ((decodeU64 b : Int) - 2 ^ 64) % (2 ^ 64 : Int)
          = (decodeU64 b : Int) % (2 ^ 64 : Int) := by omega
      rw [this]
      exact Int.emod_eq_of_lt (by omega) (by exact_mod_cast hn)
  simp only [encodeI64, this, Int.toNat_natCast]
  exact encodeU64_decodeU64 b h8 hlt

/-- A UTF-8 continuation byte (`0x80..=0xBF`). -/
def isContByte (b : Nat) : Bool := 0x80 ≤ b && b ≤ 0xBF

/-- UTF-8 validity of a byte sequence, as checked by `String::from_utf8`
(RFC 3629: no surrogates, no overlong forms, at most U+10FFFF). -/
def utf8Valid : List Nat → Bool
  | [] => true
  | b :: rest =>
    if b < 0x80 then utf8Valid rest
    else if 0xC2 ≤ b && b ≤ 0xDF then
      match rest with
      | c1 :: r => isContByte c1 && utf8Valid r
      | [] => false
    else if b = 0xE0 then
      match rest with
      | c1 :: c2 :: r => (0xA0 ≤ c1 && c1 ≤ 0xBF) && isContByte c2 && utf8Valid r
      | _ => false
    else if (0xE1 ≤ b && b ≤ 0xEC) || (0xEE ≤ b && b ≤ 0xEF) then
      match rest with
      | c1 :: c2 :: r => isContByte c1 && isContByte c2 && utf8Valid r
      | _ => false
    else if b = 0xED then
      match rest with
      | c1 :: c2 :: r => (0x80 ≤ c1 && c1 ≤ 0x9F) && isContByte c2 && utf8Valid r
      | _ => false
    else if b = 0xF0 then
      match rest with
      | c1 :: c2 :: c3 :: r =>
          (0x90 ≤ c1 && c1 ≤ 0xBF) && isContByte c2 && isContByte c3 && utf8Valid r
      | _ => false
    else if 0xF1 ≤ b && b ≤ 0xF3 then
      match rest with
      | c1 :: c2 :: c3 :: r =>
          isContByte c1 && isContByte c2 && isContByte c3 && utf8Valid r
      | _ => false
    else if b = 0xF4 then
      match rest with
      | c1 :: c2 :: c3 :: r =>
          (0x80 ≤ c1 && c1 ≤ 0x8F) && isContByte c2 && isContByte c3 && utf8Valid r
      | _ => false
    else false

/-- Well-formedness of a record as produced by the Rust code: key and
value are the UTF-8 bytes of `String`s, their lengths fit `usize` and the
timestamp fits `i64`. -/
def WFEntry (e : CEntry) : Prop :=
  utf8Valid e.key = true ∧ utf8Valid e.value = true ∧
  (∀ b ∈ e.key, b < 256) ∧ (∀ b ∈ e.value, b < 256) ∧
  e.key.length < 2 ^ 64 ∧ e.value.length < 2 ^ 64 ∧
  -2 ^ 63 ≤ e.timestamp ∧ e.timestamp < 2 ^ 63

instance (e : CEntry) : Decidable (WFEntry e) := by
  unfold WFEntry
  infer_instance

/-- `append_entry`'s byte output for one record:
`| timestamp | key_sz | value_sz | key | value |`. -/
def encodeEntry (e : CEntry) : List Nat :=
  encodeI64 e.timestamp ++ encodeU64 e.key.length ++
    encodeU64 e.value.length ++ e.key ++ e.value

/-- Byte length of one encoded record. -/
def entry_size (e : CEntry) : Nat := 24 + e.key.length + e.value.length

theorem encodeEntry_length (e : CEntry) :
    (encodeEntry e).length = entry_size e := by
  simp [encodeEntry, entry_size, encodeU64, encodeI64]
  omega

/-- `read_exact` into a buffer of `n` bytes: takes exactly `n` bytes or
fails with an I/O error (unexpected EOF). -/
def readExact (n : Nat) (bs : List Nat) : Except Error (List Nat × List Nat) :=
  if n ≤ bs.length then .ok (bs.take n, bs.drop n) else .error .Io

theorem readExact_append (p q : List Nat) (n : Nat) (h : p.length = n) :
    readExact n (p ++ q) = .ok (p, q) := by
  subst h
  simp [readExact]

theorem readExact_ok (n : Nat) (bs a r : List Nat)
    (h : readExact n bs = .ok (a, r)) :
    a = bs.take n ∧ r = bs.drop n ∧ a.length = n ∧ a ++ r = bs := by
  simp only [readExact] at h
  split at h
  · rename_i hle
    simp only [Except.ok.injEq, Prod.mk.injEq] at h
    obtain ⟨ha, hr⟩ := h
    subst ha
    subst hr
    exact ⟨rfl, rfl, by simp [hle], List.take_append_drop n bs⟩
  · simp at h

/-- `read_entry`: decode one record from the head of a byte stream,
returning the record and the remaining bytes. -/
def read_entry (bs : List Nat) : Except Error (CEntry × List Nat) :=
  (readExact 8 bs).bind fun tr =>
  (readExact 8 tr.2).bind fun kr =>
  (readExact 8 kr.2).bind fun vr =>
  (readExact (decodeU64 kr.1) vr.2).bind fun keyr =>
  (readExact (decodeU64 vr.1) keyr.2).bind fun valr =>
  if utf8Valid keyr.1 then
    if utf8Valid valr.1 then
      .ok (⟨decodeI64 tr.1, keyr.1, valr.1⟩, valr.2)
    else .error .Utf8
  else .error .Utf8

theorem exbind_ok {ε α β : Type} (a : α) (f : α → Except ε β) :
    (Except.ok a : Except ε α).bind f = f a := rfl

theorem exbind_error {ε α β : Type} (e : ε) (f : α → Except ε β) :
    (Except.error e : Except ε α).bind f = .error e := rfl

/-- Decoding the bytes of a well-formed record (followed by anything)
recovers the record and leaves the trailing bytes untouched. -/
theorem read_entry_encodeEntry (e : CEntry) (h : WFEntry e)
    (extra : List Nat) :
    read_entry (encodeEntry e ++ extra) = .ok (e, extra) := by
  obtain ⟨hk, hv, _, _, hkl, hvl, hlo, hhi⟩ := h
  have h1 : encodeEntry e ++ extra =
      encodeI64 e.timestamp ++ (encodeU64 e.key.length ++
        (encodeU64 e.value.length ++ (e.key ++ (e.value ++ extra)))) := by
    simp [encodeEntry, List.append_assoc]
  rw [h1]
  simp only [read_entry,
    readExact_append _ _ 8 (encodeI64_length e.timestamp), exbind_ok,
    readExact_append _ _ 8 (encodeU64_length e.key.length),
    readExact_append _ _ 8 (encodeU64_length e.value.length),
    decodeU64_encodeU64 _ hkl, decodeU64_encodeU64 _ hvl,
    readExact_append e.key _ e.key.length rfl,
    readExact_append e.value _ e.value.length rfl,
    hk, hv, if_true, decodeI64_encodeI64 e.timestamp hlo hhi]

/-- Any successful decode is the decode of an encode: the consumed bytes
are exactly the record's encoding. -/
theorem encodeEntry_read_entry (bs : List Nat) (e : CEntry)
    (rest : List Nat) (hb : ∀ b ∈ bs, b < 256)
    (h : read_entry bs = .ok (e, rest)) :
    encodeEntry e ++ rest = bs ∧
      e.key.length < 2 ^ 64 ∧ e.value.length < 2 ^ 64 := by
  simp only [read_entry] at h
  cases h1 : readExact 8 bs with
  | error e1 => rw [h1] at h; simp [exbind_error] at h
  | ok p1 =>
  rw [h1, exbind_ok] at h
  obtain ⟨h1a, h1b, h1len, h1app⟩ := readExact_ok _ _ _ _ h1
  cases h2 : readExact 8 p1.2 with
  | error e2 => rw [h2] at h; simp [exbind_error] at h
  | ok p2 =>
  rw [h2, exbind_ok] at h
  obtain ⟨h2a, h2b, h2len, h2app⟩ := readExact_ok _ _ _ _ h2
  cases h3 : readExact 8 p2.2 with
  | error e3 => rw [h3] at h; simp [exbind_error] at h
  | ok p3 =>
  rw [h3, exbind_ok] at h
  obtain ⟨h3a, h3b, h3len, h3app⟩ := readExact_ok _ _ _ _ h3
  cases h4 : readExact (decodeU64 p2.1) p3.2 with
  | error e4 => rw [h4] at h; simp [exbind_error] at h
  | ok p4 =>
  rw [h4, exbind_ok] at h
  obtain ⟨h4a, h4b, h4len, h4app⟩ := readExact_ok _ _ _ _ h4
  cases h5 : readExact (decodeU64 p3.1) p4.2 with
  | error e5 => rw [h5] at h; simp [exbind_error] at h
  | ok p5 =>
  rw [h5, exbind_ok] at h
  obtain ⟨h5a, h5b, h5len, h5app⟩ := readExact_ok _ _ _ _ h5
  split at h
  · split at h
    · simp only [Except.ok.injEq, Prod.mk.injEq] at h
      obtain ⟨he, hrest⟩ := h
      subst he
      subst hrest
      -- byte bounds for the three headers
      have hsub1 : ∀ b ∈ p1.1, b < 256 := fun b hmem =>
        hb b (by rw [← h1app]; exact List.mem_append_left _ hmem)
      have hbs2 : ∀ b ∈ p1.2, b < 256 := fun b hmem =>
        hb b (by rw [← h1app]; exact List.mem_append_right _ hmem)
      have hsub2 : ∀ b ∈ p2.1, b < 256 := fun b hmem =>
        hbs2 b (by rw [← h2app]; exact List.mem_append_left _ hmem)
      have hbs3 : ∀ b ∈ p2.2, b < 256 := fun b hmem =>
        hbs2 b (by rw [← h2app]; exact List.mem_append_right _ hmem)
      have hsub3 : ∀ b ∈ p3.1, b < 256 := fun b hmem =>
        hbs3 b (by rw [← h3app]; exact List.mem_append_left _ hmem)
      refine ⟨?_, ?_, ?_⟩
      · simp only [encodeEntry]
        rw [encodeI64_decodeI64 p1.1 h1len hsub1]
        rw [h4len, encodeU64_decodeU64 p2.1 h2len hsub2]
        rw [h5len, encodeU64_decodeU64 p3.1 h3len hsub3]
        rw [List.append_assoc, List.append_assoc, List.append_assoc,
          List.append_assoc, h5app, h4app, h3app, h2app, h1app]
      · rw [h4len]
        exact decodeU64_lt p2.1 h2len hsub2
      · rw [h5len]
        exact decodeU64_lt p3.1 h3len hsub3
    · simp at h
  · simp at h

/-- A successful `read_entry` consumed exactly the record's encoded
length, which is at most the stream's length. -/
theorem read_entry_ok_len (bs : List Nat) (e : CEntry) (rest : List Nat)
    (h : read_entry bs = .ok (e, rest)) :
    rest.length + entry_size e = bs.length := by
  simp only [read_entry] at h
  cases h1 : readExact 8 bs with
  | error e1 => rw [h1] at h; simp [exbind_error] at h
  | ok p1 =>
  rw [h1, exbind_ok] at h
  obtain ⟨h1a, h1b, h1len, h1app⟩ := readExact_ok _ _ _ _ h1
  cases h2 : readExact 8 p1.2 with
  | error e2 => rw [h2] at h; simp [exbind_error] at h
  | ok p2 =>
  rw [h2, exbind_ok] at h
  obtain ⟨h2a, h2b, h2len, h2app⟩ := readExact_ok _ _ _ _ h2
  cases h3 : readExact 8 p2.2 with
  | error e3 => rw [h3] at h; simp [exbind_error] at h
  | ok p3 =>
  rw [h3, exbind_ok] at h
  obtain ⟨h3a, h3b, h3len, h3app⟩ := readExact_ok _ _ _ _ h3
  cases h4 : readExact (decodeU64 p2.1) p3.2 with
  | error e4 => rw [h4] at h; simp [exbind_error] at h
  | ok p4 =>
  rw [h4, exbind_ok] at h
  obtain ⟨h4a, h4b, h4len, h4app⟩ := readExact_ok _ _ _ _ h4
  cases h5 : readExact (decodeU64 p3.1) p4.2 with
  | error e5 => rw [h5] at h; simp [exbind_error] at h
  | ok p5 =>
  rw [h5, exbind_ok] at h
  obtain ⟨h5a, h5b, h5len, h5app⟩ := readExact_ok _ _ _ _ h5
  split at h
  · split at h
    · simp only [Except.ok.injEq, Prod.mk.injEq] at h
      obtain ⟨he, hrest⟩ := h
      subst he
      subst hrest
      have l1 := congrArg List.length h1app
      have l2 := congrArg List.length h2app
      have l3 := congrArg List.length h3app
      have l4 := congrArg List.length h4app
      have l5 := congrArg List.length h5app
      simp only [List.length_append] at l1 l2 l3 l4 l5
      simp only [entry_size]
      omega
    · simp at h
  · simp at h

/-- C6. For every record (timestamp, key, value) of well-formed strings,
decoding the bytes produced by encoding the record yields the record back
and consumes the whole encoding, whose length is `24 + klen + vlen`;
conversely a byte string that decodes successfully equals the re-encoding
of the decoded record followed by the leftover bytes. -/
theorem claim_c6_codec_roundtrip :
    (∀ e : CEntry, WFEntry e →
      read_entry (encodeEntry e) = .ok (e, []) ∧
      (encodeEntry e).length = 24 + e.key.length + e.value.length)
    ∧ (∀ (bs : List Nat) (e : CEntry) (rest : List Nat),
        (∀ b ∈ bs, b < 256) → read_entry bs = .ok (e, rest) →
        encodeEntry e ++ rest = bs) := by
  constructor
  · intro e he
    refine ⟨?_, ?_⟩
    · simpa using read_entry_encodeEntry e he []
    · simpa [entry_size] using encodeEntry_length e
  · intro bs e rest hb h
    exact (encodeEntry_read_entry bs e rest hb h).1

/-- Witness for C6 at the record (ts 5, key "k", value "val"), in both
directions. -/
theorem claim_c6_codec_roundtrip_witness :
    WFEntry ⟨5, [107], [118, 97, 108]⟩ ∧
    read_entry (encodeEntry ⟨5, [107], [118, 97, 108]⟩) =
      .ok (⟨5, [107], [118, 97, 108]⟩, []) ∧
    encodeEntry ⟨5, [107], [118, 97, 108]⟩ ++ [] =
      encodeEntry ⟨5, [107], [118, 97, 108]⟩ := by
  have hwf : WFEntry ⟨5, [107], [118, 97, 108]⟩ := by decide
  refine ⟨hwf, (claim_c6_codec_roundtrip.1 ⟨5, [107], [118, 97, 108]⟩ hwf).1,
    claim_c6_codec_roundtrip.2 (encodeEntry ⟨5, [107], [118, 97, 108]⟩)
      ⟨5, [107], [118, 97, 108]⟩ [] (by decide) (by decide)⟩

/-! ## Recovery scan (`generate_index` in store.rs) -/

/-- `EntryPos { file_id, pos, sz, timestamp }`: the locator of one record. -/
structure EntryPos where
  file_id : Nat
  pos : Nat
  sz : Nat
  timestamp : Int
deriving DecidableEq, Repr

/-- The index type: `SkipMap<String, EntryPos>` modelled as an association
list keyed by UTF-8 byte strings. -/
abbrev Index := List (List Nat × EntryPos)

/-- `generate_index`: walk records from the stream, inserting each record's
locator and accumulating the sizes of displaced locators; any read failure
(in particular a truncated trailing record) ends the scan without error.
`pos`/`unc` carry the source's loop state (`pos`, `uncompacted_bytes`). -/
def generate_index (file_id : Nat) (bs : List Nat) (index : Index)
    (pos unc : Nat) : Index × Nat :=
  match h : read_entry bs with
  | .error _ => (index, unc)
  | .ok er =>
    let sz := bs.length - er.2.length
    let unc' := match lookupA index er.1.key with
      | some old => unc + old.sz
      | none => unc
    generate_index file_id er.2
      (insertA index er.1.key ⟨file_id, pos, sz, er.1.timestamp⟩)
      (pos + sz) unc'
termination_by bs.length
decreasing_by
  have hlen := read_entry_ok_len bs er.1 er.2 (by rw [h])
  simp only [entry_size] at hlen
  omega

/-- Modelled from the claim: the scan restricted to a list of complete
records in file order — each record's locator is inserted in order and the
displaced locators' lengths are accumulated. -/
def indexOfRecords (file_id : Nat) (rs : List CEntry) (index : Index)
    (pos unc : Nat) : Index × Nat :=
  match rs with
  | [] => (index, unc)
  | e :: rest =>
    let sz := entry_size e
    let unc' := match lookupA index e.key with
      | some old => unc + old.sz
      | none => unc
    indexOfRecords file_id rest
      (insertA index e.key ⟨file_id, pos, sz, e.timestamp⟩) (pos + sz) unc'

/-- Concatenated encoding of a list of records (a segment's byte content). -/
def encodeAll : List CEntry → List Nat
  | [] => []
  | e :: rest => encodeEntry e ++ encodeAll rest

/-- A truncated tail: a strict prefix of the encoding of some
well-formed record, as left behind by a crash mid-append. -/
def TruncTail (tail : List Nat) : Prop :=
  ∃ r t, WFEntry r ∧ t ≠ [] ∧ tail ++ t = encodeEntry r

theorem encodeEntry_bytes_lt (e : CEntry) (h : WFEntry e) :
    ∀ b ∈ encodeEntry e, b < 256 := by
  obtain ⟨_, _, hk, hv, _, _, _, _⟩ := h
  intro b hb
  simp only [encodeEntry, List.append_assoc, List.mem_append] at hb
  rcases hb with h1 | h2 | h3 | h4 | h5
  · simp only [encodeI64, encodeU64, List.mem_cons, List.not_mem_nil,
      or_false] at h1
    rcases h1 with h | h | h | h | h | h | h | h <;> subst h <;> omega
  · simp only [encodeU64, List.mem_cons, List.not_mem_nil, or_false] at h2
    rcases h2 with h | h | h | h | h | h | h | h <;> subst h <;> omega
  · simp only [encodeU64, List.mem_cons, List.not_mem_nil, or_false] at h3
    rcases h3 with h | h | h | h | h | h | h | h <;> subst h <;> omega
  · exact hk b h4
  · exact hv b h5

theorem drop_eight (p q : List Nat) (h : p.length = 8) :
    (p ++ q).drop 8 = q := by
  rw [← h, List.drop_left]

/-- The middle eight bytes (offsets 8..16) of an encoded record are the
encoded key length. -/
theorem encodeEntry_klen_slice (e : CEntry) (X : List Nat) :
    ((encodeEntry e ++ X).drop 8).take 8 = encodeU64 e.key.length := by
  have h1 : encodeEntry e ++ X = encodeI64 e.timestamp ++
      (encodeU64 e.key.length ++ (encodeU64 e.value.length ++
        (e.key ++ (e.value ++ X)))) := by
    simp [encodeEntry, List.append_assoc]
  rw [h1, drop_eight _ _ (encodeI64_length e.timestamp),
    ← encodeU64_length e.key.length, List.take_left]

/-- The bytes at offsets 16..24 of an encoded record are the encoded value
length. -/
theorem encodeEntry_vlen_slice (e : CEntry) (X : List Nat) :
    (((encodeEntry e ++ X).drop 8).drop 8).take 8 =
      encodeU64 e.value.length := by
  have h1 : encodeEntry e ++ X = encodeI64 e.timestamp ++
      (encodeU64 e.key.length ++ (encodeU64 e.value.length ++
        (e.key ++ (e.value ++ X)))) := by
    simp [encodeEntry, List.append_assoc]
  rw [h1, drop_eight _ _ (encodeI64_length e.timestamp),
    drop_eight _ _ (encodeU64_length e.key.length),
    ← encodeU64_length e.value.length, List.take_left]

/-- `read_entry` fails on a truncated tail: a strict prefix of a valid
record's encoding never parses. -/
theorem read_entry_truncated (tail : List Nat) (h : TruncTail tail) :
    ∃ er, read_entry tail = .error er := by
  obtain ⟨r, t, hwf, htne, happ⟩ := h
  cases hcase : read_entry tail with
  | error er => exact ⟨er, rfl⟩
  | ok p =>
  exfalso
  obtain ⟨e, rest⟩ := p
  have hb : ∀ b ∈ tail, b < 256 := by
    intro b hmem
    exact encodeEntry_bytes_lt r hwf b (by
      rw [← happ]; exact List.mem_append_left _ hmem)
  obtain ⟨heq, hkl, hvl⟩ := encodeEntry_read_entry tail e rest hb hcase
  -- the full record's encoding is the decoded record's encoding plus junk
  have hfull : encodeEntry e ++ (rest ++ t) = encodeEntry r := by
    rw [← List.append_assoc, heq, happ]
  -- equate the two length headers
  have hks : encodeU64 e.key.length = encodeU64 r.key.length := by
    have h1 := encodeEntry_klen_slice e (rest ++ t)
    have h2 := encodeEntry_klen_slice r ([] : List Nat)
    rw [List.append_nil] at h2
    rw [← h1, ← h2, hfull]
  have hvs : encodeU64 e.value.length = encodeU64 r.value.length := by
    have h1 := encodeEntry_vlen_slice e (rest ++ t)
    have h2 := encodeEntry_vlen_slice r ([] : List Nat)
    rw [List.append_nil] at h2
    rw [← h1, ← h2, hfull]
  obtain ⟨_, _, _, _, hrkl, hrvl, _, _⟩ := hwf
  have hkeq : e.key.length = r.key.length := by
    have := congrArg decodeU64 hks
    rwa [decodeU64_encodeU64 _ hkl, decodeU64_encodeU64 _ hrkl] at this
  have hveq : e.value.length = r.value.length := by
    have := congrArg decodeU64 hvs
    rwa [decodeU64_encodeU64 _ hvl, decodeU64_encodeU64 _ hrvl] at this
  have hlen := congrArg List.length hfull
  rw [List.length_append, encodeEntry_length, encodeEntry_length] at hlen
  simp only [entry_size, hkeq, hveq, List.length_append] at hlen
  have : t = [] := by
    have : t.length = 0 := by omega
    exact List.length_eq_zero.mp this
  exact htne this

/-- The scan over complete records followed by an unparsable tail equals
the per-record fold, for any initial loop state. -/
theorem generate_index_complete (file_id : Nat) (rs : List CEntry)
    (tail : List Nat) (hwf : ∀ e ∈ rs, WFEntry e)
    (htail : ∃ er, read_entry tail = .error er) :
    ∀ index pos unc,
      generate_index file_id (encodeAll rs ++ tail) index pos unc =
        indexOfRecords file_id rs index pos unc := by
  induction rs with
  | nil =>
    intro index pos unc
    obtain ⟨er, her⟩ := htail
    simp only [encodeAll, List.nil_append]
    rw [generate_index]
    split
    · simp [indexOfRecords]
    · rename_i p hok
      rw [her] at hok
      cases hok
  | cons e rest ih =>
    intro index pos unc
    have he : WFEntry e := hwf e (by simp)
    have hre : read_entry (encodeAll (e :: rest) ++ tail) =
        .ok (e, encodeAll rest ++ tail) := by
      have : encodeAll (e :: rest) ++ tail =
          encodeEntry e ++ (encodeAll rest ++ tail) := by
        simp [encodeAll, List.append_assoc]
      rw [this]
      exact read_entry_encodeEntry e he _
    have hsz : (encodeAll (e :: rest) ++ tail).length -
        (encodeAll rest ++ tail).length = entry_size e := by
      have := read_entry_ok_len _ _ _ hre
      omega
    rw [generate_index]
    split
    · rename_i a ha
      rw [hre] at ha
      cases ha
    · rename_i er hok
      rw [hre] at hok
      have hp := Except.ok.inj hok
      subst hp
      dsimp only
      rw [hsz, ih (fun x hx => hwf x (by simp [hx]))]
      rfl

/-- C7. A segment consisting of complete records followed by a strict
prefix of a further record is scanned without error by `generate_index`,
and the result is exactly the per-record fold: each complete record's
locator inserted in file order, displaced locators' sizes accumulated into
the returned uncompacted byte count. -/
theorem claim_c7_truncated_tail_scan (file_id : Nat) (rs : List CEntry)
    (tail : List Nat) (hwf : ∀ e ∈ rs, WFEntry e) (htail : TruncTail tail)
    (index : Index) :
    generate_index file_id (encodeAll rs ++ tail) index 0 0 =
      indexOfRecords file_id rs index 0 0 :=
  generate_index_complete file_id rs tail hwf
    (read_entry_truncated tail htail) index 0 0

/-- Witness for C7: two records under the same key followed by a 5-byte
truncated tail; the displaced first locator's 26 bytes are accounted. -/
theorem claim_c7_truncated_tail_scan_witness :
    TruncTail ((encodeEntry ⟨2, [109], [99]⟩).take 5) ∧
    generate_index 1
      (encodeAll [⟨0, [107], [97]⟩, ⟨1, [107], [98]⟩] ++
        (encodeEntry ⟨2, [109], [99]⟩).take 5) [] 0 0 =
      ([([107], ⟨1, 26, 26, 1⟩)], 26) := by
  have htail : TruncTail ((encodeEntry ⟨2, [109], [99]⟩).take 5) :=
    ⟨⟨2, [109], [99]⟩, (encodeEntry ⟨2, [109], [99]⟩).drop 5, by decide,
      by decide, by decide⟩
  refine ⟨htail, ?_⟩
  have h := claim_c7_truncated_tail_scan 1
      [⟨0, [107], [97]⟩, ⟨1, [107], [98]⟩]
      ((encodeEntry ⟨2, [109], [99]⟩).take 5)
      (by intro e he; fin_cases he <;> decide) htail []
  rw [h]
  decide

/-! ## Segment directory and the multi-segment `DataWriter` (store.rs)

A segment file is modelled as the list of records it contains; byte
offsets within a segment are computed from the records' encoded sizes, so
`stream_position` arithmetic is preserved exactly.  The directory is an
association list `file id → segment`.  The writer state carries the same
fields as the Rust struct; the `BufWriter`/`DataReader` handles are
represented by the directory itself plus the published `last_id`. -/

/-- A segment file's content: the records appended to `data-<id>`. -/
abbrev Segment := List CEntry

/-- Byte length of a segment (the writer's `stream_position` at its end). -/
def seg_size (s : Segment) : Nat := (s.map entry_size).sum

/-- `append_entry`: append one record to a segment, returning the new
content and the record's locator (`pos` = position before the write,
`sz` = bytes written). -/
def append_entry (seg : Segment) (file_id : Nat) (e : CEntry) :
    Segment × EntryPos :=
  (seg ++ [e], ⟨file_id, seg_size seg, entry_size e, e.timestamp⟩)

/-- Find the record starting at byte offset `pos` of a segment.  Reading
at or past the end fails like `read_exact` at EOF; an offset inside a
record's bytes is modelled as a read failure (reachable states only read
at record starts). -/
def seg_read : Segment → Nat → Except Error CEntry
  | [], _ => .error .Io
  | e :: r, pos =>
    if pos = 0 then .ok e
    else if pos < entry_size e then .error .Io
    else seg_read r (pos - entry_size e)

/-- The writer state of `DataWriter` (plus the shared directory and the
reader pool's atomic `last_id`). -/
structure DataWriter where
  dir : List (Nat × Segment)
  index : Index
  current_id : Nat
  uncompacted_bytes : Nat
  last_id : Nat
deriving DecidableEq, Repr

/-- `COMPACTION_THRESHOLD_BYTES = 1 << 20`. -/
def COMPACTION_THRESHOLD_BYTES : Nat := 2 ^ 20

/-- `DataReader::locate_entry`: open segment `p.file_id` and decode the
record at `p.pos`. -/
def locate_entry (dir : List (Nat × Segment)) (p : EntryPos) :
    Except Error CEntry :=
  match lookupA dir p.file_id with
  | none => .error .Io
  | some seg => seg_read seg p.pos

/-- `new_entry_writer`: open `data-<id>` in create+append mode (creates an
empty file when absent, otherwise keeps the content and appends at end). -/
def new_entry_writer (dir : List (Nat × Segment)) (file_id : Nat) :
    List (Nat × Segment) :=
  match lookupA dir file_id with
  | some _ => dir
  | none => insertA dir file_id []

/-- Append a record to file `file_id` of the directory through a writable
handle positioned at end of file; `id_label` is the id recorded in the
returned locator (the source passes these separately). -/
def dir_append (dir : List (Nat × Segment)) (file_id id_label : Nat)
    (e : CEntry) : List (Nat × Segment) × EntryPos :=
  let seg := (lookupA dir file_id).getD []
  let r := append_entry seg id_label e
  (insertA dir file_id r.1, r.2)

/-- The compaction loop body: for each index entry, re-read the record;
skip superseded ones, drop tombstones from the index, rewrite live records
into segment `compact_id` — tagging the new locator with `self.current_id`
(`active_id`), exactly as the source does.  A read failure aborts the loop
(Rust `?`), keeping all earlier mutations. -/
def compactLoop (items : Index) (st : DataWriter)
    (compact_id active_id : Nat) : DataWriter × Option Error :=
  match items with
  | [] => (st, none)
  | (k, p) :: rest =>
    match locate_entry st.dir p with
    | .error er => (st, some er)
    | .ok e =>
      if p.timestamp = e.timestamp then
        if e.value = [] then
          compactLoop rest { st with index := eraseA st.index k }
            compact_id active_id
        else
          let r := dir_append st.dir compact_id active_id e
          compactLoop rest
            { st with dir := r.1, index := insertA st.index k r.2 }
            compact_id active_id
      else compactLoop rest st compact_id active_id

namespace DataWriter

/-- After the rewrite loop: on success delete every segment file with id
strictly below `compact_id` and reset the stale-byte counter; a loop
failure propagates (Rust `?`) with the partial state. -/
def compactFinish (compact_id : Nat) (r : DataWriter × Option Error) :
    DataWriter × Option Error :=
  match r with
  | (st, some er) => (st, some er)
  | (st, none) =>
    ({ st with
        dir := st.dir.filter fun kv => decide (compact_id ≤ kv.1)
        uncompacted_bytes := 0 }, none)

/-- `DataWriter::compact`: with `old_id` the active id, the compaction
target is `old_id + 1` and the new active segment `old_id + 2`; the writer
rotates to the new active file (created first), publishes it as `last_id`,
opens the compact file, runs the rewrite loop and finishes. -/
def compact (s : DataWriter) : DataWriter × Option Error :=
  compactFinish (s.current_id + 1)
    (compactLoop s.index
      { s with
        current_id := s.current_id + 2
        dir := new_entry_writer (new_entry_writer s.dir (s.current_id + 2))
          (s.current_id + 1)
        last_id := s.current_id + 2 }
      (s.current_id + 1) (s.current_id + 2))

/-- `DataWriter::set`. -/
def set (s : DataWriter) (key value : List Nat) (ts : Int) :
    DataWriter × Option Error :=
  let e : CEntry := ⟨ts, key, value⟩
  let r := dir_append s.dir s.current_id s.current_id e
  let unc' := match lookupA s.index key with
    | some old => s.uncompacted_bytes + old.sz
    | none => s.uncompacted_bytes
  let s' : DataWriter :=
    { s with
      dir := r.1
      index := insertA s.index key r.2
      uncompacted_bytes := unc' }
  if COMPACTION_THRESHOLD_BYTES < unc' then compact s' else (s', none)

/-- `DataWriter::remove`: absent keys fail with `NonexistentKey` before
any mutation; present keys append a tombstone, account its size plus the
displaced locator's size, and may trigger compaction. -/
def remove (s : DataWriter) (key : List Nat) (ts : Int) :
    DataWriter × Option Error :=
  if containsA s.index key then
    let e : CEntry := ⟨ts, key, []⟩
    let r := dir_append s.dir s.current_id s.current_id e
    let unc₁ := s.uncompacted_bytes + r.2.sz
    let unc' := match lookupA s.index key with
      | some old => unc₁ + old.sz
      | none => unc₁
    let s' : DataWriter :=
      { s with
        dir := r.1
        index := insertA s.index key r.2
        uncompacted_bytes := unc' }
    if COMPACTION_THRESHOLD_BYTES < unc' then compact s' else (s', none)
  else (s, some .NonexistentKey)

end DataWriter

theorem isSome_insertA {K V : Type} [DecidableEq K] (l : List (K × V))
    (k x : K) (v : V) (hx : (lookupA l x).isSome = true) :
    (lookupA (insertA l k v) x).isSome = true := by
  by_cases hk : k = x
  · subst hk
    rw [lookupA_insertA_self]
    rfl
  · rw [lookupA_insertA_ne l k x v hk]
    exact hx

theorem new_entry_writer_isSome (d : List (Nat × Segment)) (i : Nat) :
    (lookupA (new_entry_writer d i) i).isSome = true := by
  unfold new_entry_writer
  cases h : lookupA d i with
  | some seg => simp [h]
  | none => rw [lookupA_insertA_self]; rfl

theorem new_entry_writer_keeps (d : List (Nat × Segment)) (i x : Nat)
    (hx : (lookupA d x).isSome = true) :
    (lookupA (new_entry_writer d i) x).isSome = true := by
  unfold new_entry_writer
  cases h : lookupA d i with
  | some seg => exact hx
  | none => exact isSome_insertA d i x [] hx

theorem lookupA_filter_id (l : List (Nat × Segment)) (cid x : Nat) :
    lookupA (l.filter fun kv => decide (cid ≤ kv.1)) x =
      if cid ≤ x then lookupA l x else none := by
  induction l with
  | nil => simp [lookupA]
  | cons kv r ih =>
    obtain ⟨a, b⟩ := kv
    rw [List.filter_cons]
    by_cases hc : cid ≤ a
    · rw [if_pos (by simpa using hc)]
      by_cases ha : a = x
      · subst ha
        simp [lookupA, hc]
      · simp only [lookupA, ha, if_false]
        exact ih
    · rw [if_neg (by simpa using hc), ih]
      by_cases ha : a = x
      · subst ha
        simp [hc]
      · by_cases hcx : cid ≤ x
        · simp [lookupA, ha, hcx]
        · simp [hcx]

/-- The compaction loop never touches the writer's id counters or the
stale-byte counter. -/
theorem compactLoop_fields (items : Index) (st : DataWriter)
    (cid aid : Nat) :
    (compactLoop items st cid aid).1.current_id = st.current_id ∧
    (compactLoop items st cid aid).1.last_id = st.last_id ∧
    (compactLoop items st cid aid).1.uncompacted_bytes =
      st.uncompacted_bytes := by
  induction items generalizing st with
  | nil => exact ⟨rfl, rfl, rfl⟩
  | cons kp rest ih =>
    obtain ⟨k, p⟩ := kp
    simp only [compactLoop]
    cases locate_entry st.dir p with
    | error er => exact ⟨rfl, rfl, rfl⟩
    | ok e =>
      by_cases hts : p.timestamp = e.timestamp
      · by_cases hv : e.value = []
        · simp only [hts, if_true, hv]
          exact ih _
        · simp only [hts, if_true, hv, if_false]
          exact ih _
      · simp only [hts, if_false]
        exact ih _

/-- The compaction loop only ever adds or rewrites directory entries (the
compact segment), never removes one. -/
theorem compactLoop_dir_keeps (items : Index) (st : DataWriter)
    (cid aid x : Nat) (hx : (lookupA st.dir x).isSome = true) :
    (lookupA (compactLoop items st cid aid).1.dir x).isSome = true := by
  induction items generalizing st with
  | nil => exact hx
  | cons kp rest ih =>
    obtain ⟨k, p⟩ := kp
    simp only [compactLoop]
    cases locate_entry st.dir p with
    | error er => exact hx
    | ok e =>
      by_cases hts : p.timestamp = e.timestamp
      · by_cases hv : e.value = []
        · simp only [hts, if_true, hv]
          exact ih _ hx
        · simp only [hts, if_true, hv, if_false]
          exact ih _ (isSome_insertA st.dir cid x _ hx)
      · simp only [hts, if_false]
        exact ih _ hx

theorem seg_read_err (seg : Segment) (pos : Nat) (er : Error)
    (h : seg_read seg pos = .error er) : er = Error.Io := by
  induction seg generalizing pos with
  | nil =>
    simp only [seg_read, Except.error.injEq] at h
    exact h.symm
  | cons e r ih =>
    simp only [seg_read] at h
    split at h
    · cases h
    · split at h
      · cases h
        rfl
      · exact ih _ h

theorem locate_entry_err (d : List (Nat × Segment)) (p : EntryPos)
    (er : Error) (h : locate_entry d p = .error er) : er = Error.Io := by
  unfold locate_entry at h
  cases hd : lookupA d p.file_id with
  | none =>
    rw [hd] at h
    cases h
    rfl
  | some seg =>
    rw [hd] at h
    exact seg_read_err seg p.pos er h

/-- A failing compaction loop failed inside `locate_entry`, hence with an
I/O error. -/
theorem compactLoop_err (items : Index) (st : DataWriter) (cid aid : Nat)
    (st' : DataWriter) (er : Error)
    (h : compactLoop items st cid aid = (st', some er)) : er = Error.Io := by
  induction items generalizing st with
  | nil => simp [compactLoop] at h
  | cons kp rest ih =>
    obtain ⟨k, p⟩ := kp
    simp only [compactLoop] at h
    cases hloc : locate_entry st.dir p with
    | error e0 =>
      rw [hloc] at h
      simp only [Prod.mk.injEq, Option.some.injEq] at h
      rw [← h.2]
      exact locate_entry_err st.dir p e0 hloc
    | ok e =>
      rw [hloc] at h
      by_cases hts : p.timestamp = e.timestamp
      · by_cases hv : e.value = []
        · simp only [hts, if_true, hv] at h
          exact ih _ h
        · simp only [hts, if_true, hv, if_false] at h
          exact ih _ h
      · simp only [hts, if_false] at h
        exact ih _ h

/-- A failing loop result never carries `NonexistentKey` (projection form). -/
theorem compactLoop_snd_err (items : Index) (st : DataWriter)
    (cid aid : Nat) (er : Error)
    (h : (compactLoop items st cid aid).2 = some er) : er = Error.Io :=
  compactLoop_err items st cid aid (compactLoop items st cid aid).1 er
    (by rw [← h])

namespace DataWriter

theorem compactFinish_currentId (cid : Nat) (r : DataWriter × Option Error) :
    (compactFinish cid r).1.current_id = r.1.current_id := by
  obtain ⟨st, err⟩ := r
  cases err <;> rfl

theorem compactFinish_lastId (cid : Nat) (r : DataWriter × Option Error) :
    (compactFinish cid r).1.last_id = r.1.last_id := by
  obtain ⟨st, err⟩ := r
  cases err <;> rfl

theorem compactFinish_err (cid : Nat) (r : DataWriter × Option Error) :
    (compactFinish cid r).2 = r.2 := by
  obtain ⟨st, err⟩ := r
  cases err <;> rfl

theorem compactFinish_ok (cid : Nat) (r : DataWriter × Option Error)
    (s' : DataWriter) (h : compactFinish cid r = (s', none)) :
    r.2 = none ∧ s'.current_id = r.1.current_id ∧
    s'.last_id = r.1.last_id ∧ s'.uncompacted_bytes = 0 ∧
    s'.dir = r.1.dir.filter (fun kv => decide (cid ≤ kv.1)) := by
  obtain ⟨st, err⟩ := r
  cases err with
  | none =>
    simp only [compactFinish, Prod.mk.injEq] at h
    obtain ⟨h1, _⟩ := h
    subst h1
    exact ⟨rfl, rfl, rfl, rfl, rfl⟩
  | some er => simp [compactFinish] at h

/-- Compaction always advances the writer to segment `old_id + 2` and
publishes it, even when the rewrite loop aborts half-way. -/
theorem compact_ids (s : DataWriter) :
    (compact s).1.current_id = s.current_id + 2 ∧
    (compact s).1.last_id = s.current_id + 2 := by
  unfold compact
  rw [compactFinish_currentId, compactFinish_lastId]
  exact ⟨(compactLoop_fields _ _ _ _).1, (compactLoop_fields _ _ _ _).2.1⟩

/-- A successful compaction zeroes the stale-byte counter. -/
theorem compact_ok_unc (s : DataWriter) (h : (compact s).2 = none) :
    (compact s).1.uncompacted_bytes = 0 := by
  unfold compact at h ⊢
  obtain ⟨hr, hcur, hlast, hunc, hdir⟩ :=
    compactFinish_ok _ _ _ (by rw [← h])
  exact hunc

/-- Compaction can fail only with an I/O error, never `NonexistentKey`. -/
theorem compact_ne_nonexistent (s : DataWriter) :
    (compact s).2 ≠ some Error.NonexistentKey := by
  unfold compact
  rw [compactFinish_err]
  intro hcontra
  have := compactLoop_snd_err _ _ _ _ _ hcontra
  cases this

end DataWriter

/-- The length of the locator that an operation on `key` displaces from
the index (0 when the key is absent). -/
def displaced_sz (s : DataWriter) (key : List Nat) : Nat :=
  match lookupA s.index key with
  | some old => old.sz
  | none => 0

/-- C2 (code defect, evaluated at the failing input).  A one-key store on
segment 1 is compacted: the live record is rewritten into segment
`compact_id = 2`, but the index entry is overwritten with a locator whose
`file_id` is 3 (`self.current_id`, the new active id) instead of
`compact_id`; the locator therefore no longer identifies a record whose
key equals the indexed key — reading through it hits the empty active
segment and fails, while the record actually lives in segment 2. -/
theorem claim_c2_compact_locator_mislabeled :
    DataWriter.compact
        ⟨[(1, [⟨0, [107], [118]⟩])], [([107], ⟨1, 0, 26, 0⟩)], 1, 0, 1⟩ =
      (⟨[(3, []), (2, [⟨0, [107], [118]⟩])],
        [([107], ⟨3, 0, 26, 0⟩)], 3, 0, 3⟩, none) ∧
    locate_entry [(3, []), (2, [⟨0, [107], [118]⟩])] ⟨3, 0, 26, 0⟩ =
      .error .Io ∧
    locate_entry [(3, []), (2, [⟨0, [107], [118]⟩])] ⟨2, 0, 26, 0⟩ =
      .ok ⟨0, [107], [118]⟩ := by
  exact ⟨by decide, by decide, by decide⟩

/-- C3.  For every compaction run that returns successfully from state
`s`: the new active id `s.current_id + 2` is installed and published as
`last_id`, the compaction target `s.current_id + 1` exists as a segment
file afterwards, every surviving segment file has id at least
`compact_id = s.current_id + 1` (all smaller ids were deleted), and
`uncompacted_bytes` is reset to zero. -/
theorem claim_c3_compact_protocol (s s' : DataWriter)
    (h : DataWriter.compact s = (s', none)) :
    s'.current_id = s.current_id + 2 ∧
    s'.last_id = s.current_id + 2 ∧
    (lookupA s'.dir (s.current_id + 1)).isSome = true ∧
    (∀ id, (lookupA s'.dir id).isSome = true → s.current_id + 1 ≤ id) ∧
    s'.uncompacted_bytes = 0 := by
  unfold DataWriter.compact at h
  obtain ⟨hr, hcur, hlast, hunc, hdir⟩ := DataWriter.compactFinish_ok _ _ _ h
  rw [(compactLoop_fields _ _ _ _).1] at hcur
  rw [(compactLoop_fields _ _ _ _).2.1] at hlast
  refine ⟨hcur, hlast, ?_, ?_, hunc⟩
  · rw [hdir, lookupA_filter_id, if_pos (le_refl _)]
    exact compactLoop_dir_keeps _ _ _ _ _
      (new_entry_writer_isSome _ _)
  · intro id hid
    rw [hdir, lookupA_filter_id] at hid
    by_cases hle : s.current_id + 1 ≤ id
    · exact hle
    · rw [if_neg hle] at hid
      cases hid

/-- Witness for C3: a successful compaction from a concrete one-key state
with 5 stale bytes. -/
theorem claim_c3_compact_protocol_witness :
    DataWriter.compact
        (⟨[(1, [⟨0, [106], [119]⟩])], [([106], ⟨1, 0, 26, 0⟩)], 1, 5, 1⟩ :
          DataWriter) =
      ((DataWriter.compact
        ⟨[(1, [⟨0, [106], [119]⟩])], [([106], ⟨1, 0, 26, 0⟩)], 1, 5, 1⟩).1,
        none) ∧
    (DataWriter.compact
        ⟨[(1, [⟨0, [106], [119]⟩])], [([106], ⟨1, 0, 26, 0⟩)],
          1, 5, 1⟩).1.current_id = 3 ∧
    (DataWriter.compact
        ⟨[(1, [⟨0, [106], [119]⟩])], [([106], ⟨1, 0, 26, 0⟩)],
          1, 5, 1⟩).1.uncompacted_bytes = 0 := by
  have h : DataWriter.compact
      (⟨[(1, [⟨0, [106], [119]⟩])], [([106], ⟨1, 0, 26, 0⟩)], 1, 5, 1⟩ :
        DataWriter) =
      ((DataWriter.compact
        ⟨[(1, [⟨0, [106], [119]⟩])], [([106], ⟨1, 0, 26, 0⟩)], 1, 5, 1⟩).1,
        none) := by decide
  have hc := claim_c3_compact_protocol _ _ h
  exact ⟨h, hc.1.trans (by decide), hc.2.2.2.2⟩

/-- C4.  `set` raises `uncompacted_bytes` by exactly the displaced
locator's length (zero when the key was absent); `remove` on a present key
raises it by the appended tombstone's own length plus the displaced
locator's length; in both cases compaction runs synchronously inside the
operation exactly when the resulting counter strictly exceeds
`2^20` bytes (observable as the active id advancing by two, with the
counter reset on success). -/
theorem claim_c4_stale_accounting (s : DataWriter) (key value : List Nat)
    (ts : Int) :
    ((¬ COMPACTION_THRESHOLD_BYTES < s.uncompacted_bytes + displaced_sz s key →
        DataWriter.set s key value ts =
          ({ s with
              dir := (dir_append s.dir s.current_id s.current_id
                ⟨ts, key, value⟩).1
              index := insertA s.index key
                (dir_append s.dir s.current_id s.current_id
                  ⟨ts, key, value⟩).2
              uncompacted_bytes :=
                s.uncompacted_bytes + displaced_sz s key }, none)) ∧
      (COMPACTION_THRESHOLD_BYTES < s.uncompacted_bytes + displaced_sz s key →
        (DataWriter.set s key value ts).1.current_id = s.current_id + 2 ∧
        ((DataWriter.set s key value ts).2 = none →
          (DataWriter.set s key value ts).1.uncompacted_bytes = 0))) ∧
    (containsA s.index key = true →
      (¬ COMPACTION_THRESHOLD_BYTES <
          s.uncompacted_bytes + entry_size ⟨ts, key, []⟩ + displaced_sz s key →
        DataWriter.remove s key ts =
          ({ s with
              dir := (dir_append s.dir s.current_id s.current_id
                ⟨ts, key, []⟩).1
              index := insertA s.index key
                (dir_append s.dir s.current_id s.current_id
                  ⟨ts, key, []⟩).2
              uncompacted_bytes := s.uncompacted_bytes +
                entry_size ⟨ts, key, []⟩ + displaced_sz s key }, none)) ∧
      (COMPACTION_THRESHOLD_BYTES <
          s.uncompacted_bytes + entry_size ⟨ts, key, []⟩ + displaced_sz s key →
        (DataWriter.remove s key ts).1.current_id = s.current_id + 2 ∧
        ((DataWriter.remove s key ts).2 = none →
          (DataWriter.remove s key ts).1.uncompacted_bytes = 0))) := by
  have hu : (match lookupA s.index key with
      | some old => s.uncompacted_bytes + old.sz
      | none => s.uncompacted_bytes) =
      s.uncompacted_bytes + displaced_sz s key := by
    cases h : lookupA s.index key <;> simp [displaced_sz, h]
  have hsz : (dir_append s.dir s.current_id s.current_id ⟨ts, key, []⟩).2.sz =
      entry_size ⟨ts, key, []⟩ := rfl
  have hu2 : (match lookupA s.index key with
      | some old => s.uncompacted_bytes + entry_size ⟨ts, key, []⟩ + old.sz
      | none => s.uncompacted_bytes + entry_size ⟨ts, key, []⟩) =
      s.uncompacted_bytes + entry_size ⟨ts, key, []⟩ + displaced_sz s key := by
    cases h : lookupA s.index key <;> simp [displaced_sz, h]
  constructor
  · constructor
    · intro hle
      simp only [DataWriter.set, hu, if_neg hle]
    · intro hgt
      simp only [DataWriter.set, hu, if_pos hgt]
      exact ⟨(DataWriter.compact_ids _).1, fun h2 =>
        DataWriter.compact_ok_unc _ h2⟩
  · intro hmem
    constructor
    · intro hle
      simp only [DataWriter.remove, hmem, if_pos, hsz, hu2, if_neg hle]
    · intro hgt
      simp only [DataWriter.remove, hmem, if_pos, hsz, hu2, if_pos hgt]
      exact ⟨(DataWriter.compact_ids _).1, fun h2 =>
        DataWriter.compact_ok_unc _ h2⟩

/-- Witness for C4: below the threshold `set` adds the 26 displaced bytes
and `remove` adds 25 (tombstone) + 26 (displaced); above the threshold
`set` compacts within the call. -/
theorem claim_c4_stale_accounting_witness :
    (DataWriter.set
        ⟨[(1, [⟨0, [107], [118]⟩])], [([107], ⟨1, 0, 26, 0⟩)], 1, 0, 1⟩
        [107] [119] 7).1.uncompacted_bytes = 26 ∧
    (DataWriter.remove
        ⟨[(1, [⟨0, [107], [118]⟩])], [([107], ⟨1, 0, 26, 0⟩)], 1, 0, 1⟩
        [107] 7).1.uncompacted_bytes = 51 ∧
    (DataWriter.set
        ⟨[(1, [⟨0, [107], [118]⟩])], [([107], ⟨1, 0, 26, 0⟩)],
          1, 2 ^ 20, 1⟩ [107] [119] 7).1.current_id = 3 := by
  refine ⟨?_, ?_, ?_⟩
  · have h := (claim_c4_stale_accounting
        ⟨[(1, [⟨0, [107], [118]⟩])], [([107], ⟨1, 0, 26, 0⟩)], 1, 0, 1⟩
        [107] [119] 7).1.1 (by decide)
    rw [h]
    decide
  · have h := ((claim_c4_stale_accounting
        ⟨[(1, [⟨0, [107], [118]⟩])], [([107], ⟨1, 0, 26, 0⟩)], 1, 0, 1⟩
        [107] [119] 7).2 (by decide)).1 (by decide)
    rw [h]
    decide
  · have h := ((claim_c4_stale_accounting
        ⟨[(1, [⟨0, [107], [118]⟩])], [([107], ⟨1, 0, 26, 0⟩)],
          1, 2 ^ 20, 1⟩ [107] [119] 7).1.2 (by decide)).1
    exact h.trans (by decide)

/-- C5.  `remove` of a key absent from the index fails with
`NonexistentKey` and leaves the store completely unchanged (the check
precedes every write); conversely `NonexistentKey` is only returned for
absent keys — a present key's removal either succeeds or fails inside
compaction with an I/O error. -/
theorem claim_c5_remove_nonexistent (s : DataWriter) (key : List Nat)
    (ts : Int) :
    (lookupA s.index key = none →
      DataWriter.remove s key ts = (s, some Error.NonexistentKey)) ∧
    ((DataWriter.remove s key ts).2 = some Error.NonexistentKey →
      lookupA s.index key = none) := by
  constructor
  · intro h
    simp [DataWriter.remove, containsA, h]
  · intro h
    by_contra hne
    have hmem : containsA s.index key = true := by
      unfold containsA
      cases hl : lookupA s.index key with
      | none => exact absurd hl hne
      | some v => rfl
    simp only [DataWriter.remove, hmem, if_pos] at h
    split at h
    · exact DataWriter.compact_ne_nonexistent _ h
    · simp at h

/-- Witness for C5: removing the absent key "q" from a concrete one-key
store fails with `NonexistentKey` and returns the state unchanged. -/
theorem claim_c5_remove_nonexistent_witness :
    lookupA ([([107], ⟨1, 0, 26, 0⟩)] : Index) [113] = none ∧
    DataWriter.remove
        ⟨[(1, [⟨0, [107], [118]⟩])], [([107], ⟨1, 0, 26, 0⟩)], 1, 0, 1⟩
        [113] 3 =
      (⟨[(1, [⟨0, [107], [118]⟩])], [([107], ⟨1, 0, 26, 0⟩)], 1, 0, 1⟩,
        some Error.NonexistentKey) :=
  ⟨by decide,
    (claim_c5_remove_nonexistent
      ⟨[(1, [⟨0, [107], [118]⟩])], [([107], ⟨1, 0, 26, 0⟩)], 1, 0, 1⟩
      [113] 3).1 (by decide)⟩

/-! ## Segment file enumeration (`sorted_file_id_list` in store.rs)

The directory is modelled as the list of its file names.  The source
strips the pattern with `trim_start_matches` (which removes *every*
leading occurrence of `"data-"`) and parses the remainder with
`str::parse::<u64>` (which accepts a leading `+`, leading zeros, and
rejects values of 2^64 or more); names that fail to parse are skipped. -/

/-- `trim_start_matches("data-")`: repeatedly strip the leading `data-`. -/
def trim_data_marks : List Char → List Char
  | 'd' :: 'a' :: 't' :: 'a' :: '-' :: r => trim_data_marks r
  | cs => cs

/-- Accumulating decimal parse: all characters must be ASCII digits. -/
def digitsVal : List Char → Nat → Option Nat
  | [], acc => some acc
  | c :: r, acc =>
    if c.isDigit then digitsVal r (acc * 10 + (c.toNat - '0'.toNat))
    else none

/-- `str::parse::<u64>`: optional leading `+`, then one or more ASCII
digits, value below 2^64. -/
def parse_u64 (cs : List Char) : Option Nat :=
  let body := match cs with
    | '+' :: r => r
    | _ => cs
  match body with
  | [] => none
  | _ =>
    match digitsVal body 0 with
    | some v => if v < 2 ^ 64 then some v else none
    | none => none

/-- The id a directory entry contributes: strip `data-` occurrences, then
parse as `u64`. -/
def parse_file_id (name : String) : Option Nat :=
  parse_u64 (trim_data_marks name.toList)

/-- `sorted_file_id_list`: the parsed ids of all file names, sorted
ascending (`sort_unstable`; modelled by `mergeSort`, which produces the
same list as any ascending sort of the same multiset). -/
def sorted_file_id_list (names : List String) : List Nat :=
  (names.filterMap parse_file_id).mergeSort

/-- Modelled from the claim: a file name matches exactly when it is
`data-` followed by the decimal representation of a 64-bit id. -/
def SpecFileId (name : String) (n : Nat) : Prop :=
  n < 2 ^ 64 ∧ name = "data-" ++ Nat.repr n

/-- Counterexample to C9: the file name `"7"` is not of the form
`data-<decimal u64>`, yet `sorted_file_id_list` reports id 7 for it
(`trim_start_matches` leaves non-matching names unchanged and the bare
digits parse). -/
theorem claim_c9_counterexample :
    sorted_file_id_list ["7"] = [7] ∧ (∀ n, ¬ SpecFileId "7" n) := by
  constructor
  · have h1 : sorted_file_id_list ["7"] = List.mergeSort [7] := rfl
    rw [h1]
    exact List.perm_singleton.mp (List.mergeSort_perm [7] _)
  · intro n hn
    obtain ⟨_, heq⟩ := hn
    have hl := congrArg String.length heq
    rw [String.length_append] at hl
    have h7 : ("7" : String).length = 1 := rfl
    have hd : ("data-" : String).length = 5 := rfl
    omega

/-- C9 (amended).  `sorted_file_id_list` returns, in ascending order,
exactly the values obtained from the directory's file names by stripping
every leading `data-` occurrence and parsing the remainder as a `u64`
(so bare numerals, repeated `data-` marks, a leading `+` and leading
zeros also contribute); names whose remainder does not parse contribute
nothing. -/
theorem claim_c9_sorted_file_id_list (names : List String) :
    List.Sorted (· ≤ ·) (sorted_file_id_list names) ∧
    (∀ n, n ∈ sorted_file_id_list names ↔
      ∃ name ∈ names, parse_file_id name = some n) := by
  constructor
  · exact List.sorted_mergeSort' _
  · intro n
    unfold sorted_file_id_list
    rw [(List.mergeSort_perm _ _).mem_iff, List.mem_filterMap]

/-! ## Server request loop (`process` in kvs-server.rs)

The engine behind the loop is generic (`E: KvsEngine`); each request is
therefore paired with the outcome of its engine call. -/

/-- One request together with the engine's reply for it. -/
inductive Event where
  | Set (key value : String) (r : Except Error Unit)
  | Get (key : String) (r : Except Error (Option String))
  | Remove (key : String) (r : Except Error Unit)
deriving DecidableEq, Repr

/-- `Response::Status(..)`. -/
inductive Response where
  | Status (s : String)
deriving DecidableEq, Repr

/-- The per-connection loop of `process`: responses sent in order; a `?`
on a `Set`/`Get` engine error ends the loop with that error before any
response for the request; `Remove` maps `is_err()` — any error at all —
to the literal status `"Key not found"` and continues. -/
def process : List Event → List Response × Option Error
  | [] => ([], none)
  | ev :: rest =>
    match ev with
    | .Set _ _ r =>
      match r with
      | .ok _ =>
        let t := process rest
        (Response.Status "" :: t.1, t.2)
      | .error er => ([], some er)
    | .Get _ r =>
      match r with
      | .ok v =>
        let t := process rest
        (Response.Status (match v with
          | some s => s
          | none => "Key not found") :: t.1, t.2)
      | .error er => ([], some er)
    | .Remove _ r =>
      let t := process rest
      ((match r with
        | .ok _ => Response.Status ""
        | .error _ => Response.Status "Key not found") :: t.1, t.2)

/-- Counterexample to C8: a `Remove` whose engine call fails with an I/O
error — not `NonexistentKey` — is answered with `"Key not found"` and the
loop continues to serve the next request, instead of ending the loop. -/
theorem claim_c8_counterexample :
    process [Event.Remove "k" (.error .Io), Event.Get "x" (.ok (some "v"))] =
      ([Response.Status "Key not found", Response.Status "v"], none) ∧
    Error.Io ≠ Error.NonexistentKey := by
  exact ⟨rfl, by decide⟩

/-- C8 (amended).  The response to a `Remove` request is the empty status
exactly when the engine's remove succeeds, and the literal `"Key not
found"` whenever it fails with *any* engine error (`NonexistentKey`, but
also `Io`/`Codec` — `is_err()` does not discriminate); no `Remove` error
ends the request loop.  `Set` and `Get` engine errors do end the loop,
producing no response for the failing request. -/
theorem claim_c8_remove_response (k v : String) (r : Except Error Unit)
    (er : Error) (rest : List Event) :
    process (Event.Remove k r :: rest) =
      ((match r with
        | .ok _ => Response.Status ""
        | .error _ => Response.Status "Key not found") ::
          (process rest).1, (process rest).2) ∧
    process (Event.Set k v (.error er) :: rest) = ([], some er) ∧
    process (Event.Get k (.error er) :: rest) = ([], some er) := by
  refine ⟨rfl, rfl, rfl⟩

/-! ## The single-file engine (`KvStore` in engines/kvs.rs)

The `data` file holds serde_json-encoded records; the byte stream is
abstracted to the sequence of records it contains (`pos` is the record's
ordinal in the file, `sz` the count of records a locator spans — always
one).  `get`/`set`/`remove`/`compact` semantics are independent of the
units; byte-exact sizes are modelled for the binary multi-segment engine
above.  `Utc::now().timestamp()` is passed in as an argument. -/

/-- `Entry { key, value, timestamp }` of the single-file engine. -/
structure AEntry where
  key : String
  value : String
  timestamp : Int
deriving DecidableEq, Repr

/-- `EntryPos { pos, sz, timestamp }` of the single-file engine. -/
structure PosA where
  pos : Nat
  sz : Nat
  timestamp : Int
deriving DecidableEq, Repr

/-- The `KvStore` state: in-memory index, the `data` file's records, and
the stale counter.  A freshly opened directory gives the empty state. -/
structure KvStore where
  index : List (String × PosA)
  file : List AEntry
  uncompacted_bytes : Nat
deriving DecidableEq, Repr

/-- `DataFile::append`: append one record, returning its locator. -/
def fileAppend (file : List AEntry) (e : AEntry) : List AEntry × PosA :=
  (file ++ [e], ⟨file.length, 1, e.timestamp⟩)

/-- `DataFile::locate_entry`: read back the record a locator points to;
fails (I/O or serde error) when the locator is outside the file. -/
def locateA (file : List AEntry) (p : PosA) : Except Error AEntry :=
  match file[p.pos]? with
  | some e => .ok e
  | none => .error .Io

namespace KvStore

/-- The compaction loop over the index entries: re-read each locator from
the old file, skip superseded entries, collect tombstoned keys for later
removal, rewrite live records into the new file and update their index
entries in place.  A read failure aborts (Rust `?`), keeping the already
rewritten prefix of the index. -/
def compactLoopA : List (String × PosA) → List AEntry → List AEntry →
    List (String × PosA) × List AEntry × List String × Option Error
  | [], _, nf => ([], nf, [], none)
  | (k, p) :: rest, old, nf =>
    match locateA old p with
    | .error er => ((k, p) :: rest, nf, [], some er)
    | .ok e =>
      if p.timestamp = e.timestamp then
        if e.value = "" then
          let t := compactLoopA rest old nf
          ((k, p) :: t.1, t.2.1, e.key :: t.2.2.1, t.2.2.2)
        else
          let r := fileAppend nf e
          let t := compactLoopA rest old r.1
          ((k, r.2) :: t.1, t.2.1, t.2.2.1, t.2.2.2)
      else
        let t := compactLoopA rest old nf
        ((k, p) :: t.1, t.2.1, t.2.2.1, t.2.2.2)

/-- `KvStore::compact`: rename `data` aside, rewrite live entries into a
fresh `data`, erase tombstoned keys from the index, reset the stale
counter and drop the backup.  On a loop failure the current file is not
swapped and the counter keeps its value. -/
def compact (s : KvStore) : KvStore × Option Error :=
  match compactLoopA s.index s.file [] with
  | (idx, nf, removed, none) => (⟨removed.foldl eraseA idx, nf, 0⟩, none)
  | (idx, _, _, some er) => (⟨idx, s.file, s.uncompacted_bytes⟩, some er)

/-- `KvStore::set`. -/
def set (s : KvStore) (key value : String) (ts : Int) :
    KvStore × Option Error :=
  let r := fileAppend s.file ⟨key, value, ts⟩
  let unc' := match lookupA s.index key with
    | some old => s.uncompacted_bytes + old.sz
    | none => s.uncompacted_bytes
  if COMPACTION_THRESHOLD_BYTES < unc' then
    compact ⟨insertA s.index key r.2, r.1, unc'⟩
  else (⟨insertA s.index key r.2, r.1, unc'⟩, none)

/-- `KvStore::remove`: a key absent from the index fails with
`NonexistentKey` before any write; otherwise a tombstone (empty value) is
appended and the index entry is overwritten to point at it. -/
def remove (s : KvStore) (key : String) (ts : Int) :
    KvStore × Option Error :=
  if containsA s.index key then
    let r := fileAppend s.file ⟨key, "", ts⟩
    let unc' := match lookupA s.index key with
      | some old => s.uncompacted_bytes + r.2.sz + old.sz
      | none => s.uncompacted_bytes + r.2.sz
    if COMPACTION_THRESHOLD_BYTES < unc' then
      compact ⟨insertA s.index key r.2, r.1, unc'⟩
    else (⟨insertA s.index key r.2, r.1, unc'⟩, none)
  else (s, some .NonexistentKey)

/-- `KvStore::get`: `None` for keys absent from the index and for records
with empty value (tombstones); otherwise the located record's value. -/
def get (s : KvStore) (key : String) : Except Error (Option String) :=
  match lookupA s.index key with
  | none => .ok none
  | some p =>
    match locateA s.file p with
    | .error er => .error er
    | .ok e => if e.value ≠ "" then .ok (some e.value) else .ok none

end KvStore

/-- `KvStore::open` on a fresh directory: no `hint`, no `data`. -/
def openFresh : KvStore := ⟨[], [], 0⟩

/-- One mutating operation of a client session. -/
inductive OpA where
  | setOp (key value : String) (ts : Int)
  | rmOp (key : String) (ts : Int)
deriving DecidableEq, Repr

/-- Apply one operation, keeping the state (a failed `remove` of an
absent key leaves the state unchanged). -/
def applyOp (s : KvStore) (op : OpA) : KvStore :=
  match op with
  | .setOp k v ts => (KvStore.set s k v ts).1
  | .rmOp k ts => (KvStore.remove s k ts).1

/-- Run a session against a freshly opened store. -/
def execA (ops : List OpA) : KvStore := ops.foldl applyOp openFresh

/-- Modelled from the claim: the sequential map semantics — `set`
overwrites, `remove` erases. -/
def specStep (m : List (String × String)) (op : OpA) :
    List (String × String) :=
  match op with
  | .setOp k v _ => insertA m k v
  | .rmOp k _ => eraseA m k

/-- Modelled from the claim: the map after a whole session. -/
def specMap (ops : List OpA) : List (String × String) :=
  ops.foldl specStep []

/-- Modelled from the claim: the expected result of the final `get`. -/
def specGet (ops : List OpA) (k : String) : Option String :=
  lookupA (specMap ops) k

/-- An operation with a non-empty payload (`set` of the empty string is
the engine's tombstone encoding and behaves as a removal). -/
def goodOp : OpA → Bool
  | .setOp _ v _ => decide (v ≠ "")
  | .rmOp _ _ => true

section AssocMore

variable {K V : Type} [DecidableEq K]

theorem lookupA_eq_none_iff (l : List (K × V)) (k : K) :
    lookupA l k = none ↔ k ∉ l.map Prod.fst := by
  induction l with
  | nil => simp [lookupA]
  | cons kp r ih =>
    obtain ⟨a, b⟩ := kp
    by_cases ha : a = k
    · subst ha
      simp [lookupA]
    · simp only [lookupA, ha, if_false]
      rw [ih]
      simp only [List.map_cons, List.mem_cons, not_or]
      constructor
      · intro h
        exact ⟨fun hk => ha hk.symm, h⟩
      · intro h
        exact h.2

theorem lookupA_of_mem (l : List (K × V)) (k : K) (v : V)
    (hnd : (l.map Prod.fst).Nodup) (hmem : (k, v) ∈ l) :
    lookupA l k = some v := by
  induction l with
  | nil => simp at hmem
  | cons kp r ih =>
    obtain ⟨a, b⟩ := kp
    simp only [List.map_cons, List.nodup_cons] at hnd
    rcases List.mem_cons.mp hmem with h1 | h2
    · obtain ⟨h1a, h1b⟩ := Prod.mk.injEq .. ▸ h1
      cases h1
      simp [lookupA]
    · have ha : a ≠ k := by
        intro hak
        subst hak
        exact hnd.1 (List.mem_map.mpr ⟨(a, v), h2, rfl⟩)
      simp only [lookupA, ha, if_false]
      exact ih hnd.2 h2

theorem mem_eraseA_sub (l : List (K × V)) (k : K) (kp : K × V)
    (h : kp ∈ eraseA l k) : kp ∈ l := by
  induction l with
  | nil => simpa [eraseA] using h
  | cons q r ih =>
    obtain ⟨a, b⟩ := q
    by_cases ha : a = k
    · simp only [eraseA, ha, if_pos] at h
      exact List.mem_cons_of_mem _ h
    · simp only [eraseA, ha, if_false, List.mem_cons] at h
      rcases h with h1 | h2
      · exact List.mem_cons.mpr (Or.inl h1)
      · exact List.mem_cons_of_mem _ (ih h2)

theorem mem_foldl_eraseA_sub (ks : List K) (l : List (K × V)) (kp : K × V)
    (h : kp ∈ ks.foldl eraseA l) : kp ∈ l := by
  induction ks generalizing l with
  | nil => simpa using h
  | cons a ks ih =>
    simp only [List.foldl_cons] at h
    exact mem_eraseA_sub l a kp (ih _ h)

theorem nodup_foldl_eraseA (ks : List K) (l : List (K × V))
    (h : (l.map Prod.fst).Nodup) :
    (((ks.foldl eraseA l)).map Prod.fst).Nodup := by
  induction ks generalizing l with
  | nil => simpa using h
  | cons a ks ih =>
    simp only [List.foldl_cons]
    exact ih _ (nodup_eraseA l a h)

theorem getElem?_append_cons {α : Type} (l : List α) (a : α) (t : List α) :
    (l ++ a :: t)[l.length]? = some a := by
  induction l with
  | nil => simp
  | cons x l ih => simpa using ih

end AssocMore

/-- The single-file store's structural invariant: index keys are distinct
and every locator points inside the file at a record with the indexed key
and the locator's timestamp. -/
def InvA (s : KvStore) : Prop :=
  (s.index.map Prod.fst).Nodup ∧
  ∀ kp ∈ s.index, ∃ e, s.file[kp.2.pos]? = some e ∧
    e.key = kp.1 ∧ e.timestamp = kp.2.timestamp

/-- The value the store would serve for a key (tombstones read as
`none`). -/
def viewA (s : KvStore) (k : String) : Option String :=
  match lookupA s.index k with
  | none => none
  | some p =>
    match s.file[p.pos]? with
    | some e => if e.value = "" then none else some e.value
    | none => none

namespace KvStore

/-- Behaviour of the single-file compaction loop on a well-formed index:
it succeeds, extends the fresh file, keeps the key set, marks exactly the
tombstoned keys for removal, and repoints every live key at its record's
copy in the fresh file. -/
theorem compactLoopA_spec (items : List (String × PosA))
    (old : List AEntry) (hnd : (items.map Prod.fst).Nodup)
    (hwf : ∀ kp ∈ items, ∃ e, old[kp.2.pos]? = some e ∧
      e.key = kp.1 ∧ e.timestamp = kp.2.timestamp) :
    ∀ nf₀ : List AEntry,
      (compactLoopA items old nf₀).2.2.2 = none ∧
      (∃ extra, (compactLoopA items old nf₀).2.1 = nf₀ ++ extra) ∧
      (compactLoopA items old nf₀).1.map Prod.fst = items.map Prod.fst ∧
      (∀ k, lookupA items k = none →
        lookupA (compactLoopA items old nf₀).1 k = none ∧
        k ∉ (compactLoopA items old nf₀).2.2.1) ∧
      (∀ k p e, lookupA items k = some p → old[p.pos]? = some e →
        (e.value = "" →
          lookupA (compactLoopA items old nf₀).1 k = some p ∧
          k ∈ (compactLoopA items old nf₀).2.2.1) ∧
        (e.value ≠ "" →
          ∃ p', lookupA (compactLoopA items old nf₀).1 k = some p' ∧
            (compactLoopA items old nf₀).2.1[p'.pos]? = some e ∧
            e.timestamp = p'.timestamp ∧
            k ∉ (compactLoopA items old nf₀).2.2.1)) := by
  induction items with
  | nil =>
    intro nf₀
    refine ⟨rfl, ⟨[], by simp [compactLoopA]⟩, rfl, ?_, ?_⟩
    · intro k _
      exact ⟨rfl, by simp [compactLoopA]⟩
    · intro k p e hl
      simp [lookupA] at hl
  | cons kp rest ih =>
    obtain ⟨k, p⟩ := kp
    simp only [List.map_cons, List.nodup_cons] at hnd
    obtain ⟨e₀, he₀, hk₀, ht₀⟩ := hwf (k, p) (List.mem_cons_self _ _)
    simp only at he₀ hk₀ ht₀
    have hwfr : ∀ kp ∈ rest, ∃ e, old[kp.2.pos]? = some e ∧
        e.key = kp.1 ∧ e.timestamp = kp.2.timestamp :=
      fun kp h => hwf kp (List.mem_cons_of_mem _ h)
    have ihr := ih hnd.2 hwfr
    intro nf₀
    have hloc : locateA old p = .ok e₀ := by
      simp [locateA, he₀]
    by_cases hv : e₀.value = ""
    · -- tombstone: the key keeps its entry but is queued for removal
      have hred : compactLoopA ((k, p) :: rest) old nf₀ =
          ((k, p) :: (compactLoopA rest old nf₀).1,
            (compactLoopA rest old nf₀).2.1,
            k :: (compactLoopA rest old nf₀).2.2.1,
            (compactLoopA rest old nf₀).2.2.2) := by
        simp only [compactLoopA, hloc, if_pos ht₀.symm, hv, if_pos]
        rw [hk₀]
      rw [hred]
      obtain ⟨h1, ⟨extra, h2⟩, h3, h4, h5⟩ := ihr nf₀
      refine ⟨h1, ⟨extra, h2⟩, by simp [h3], ?_, ?_⟩
      · intro k₀ hl
        simp only [lookupA] at hl
        by_cases hkk : k = k₀
        · rw [if_pos hkk] at hl
          cases hl
        · rw [if_neg hkk] at hl
          obtain ⟨hg1, hg2⟩ := h4 k₀ hl
          refine ⟨?_, ?_⟩
          · simp only [lookupA, hkk, if_false]
            exact hg1
          · simp only [List.mem_cons, not_or]
            exact ⟨fun hc => hkk hc.symm, hg2⟩
      · intro k₀ p₀ e₁ hl he₁
        simp only [lookupA] at hl
        by_cases hkk : k = k₀
        · subst hkk
          rw [if_pos rfl] at hl
          obtain rfl : p = p₀ := by
            cases hl
            rfl
          obtain rfl : e₀ = e₁ := by
            rw [he₀] at he₁
            cases he₁
            rfl
          refine ⟨fun _ => ⟨?_, List.mem_cons_self _ _⟩, fun hne => absurd hv hne⟩
          simp [lookupA]
        · rw [if_neg hkk] at hl
          obtain ⟨hg1, hg2⟩ := h5 k₀ p₀ e₁ hl he₁
          constructor
          · intro hve
            obtain ⟨ha, hb⟩ := hg1 hve
            refine ⟨?_, List.mem_cons_of_mem _ hb⟩
            simp only [lookupA, hkk, if_false]
            exact ha
          · intro hve
            obtain ⟨p', ha, hb, hc, hd⟩ := hg2 hve
            refine ⟨p', ?_, hb, hc, ?_⟩
            · simp only [lookupA, hkk, if_false]
              exact ha
            · simp only [List.mem_cons, not_or]
              exact ⟨fun hcx => hkk hcx.symm, hd⟩
    · -- live record: rewritten at the end of the fresh file
      have hred : compactLoopA ((k, p) :: rest) old nf₀ =
          ((k, (⟨nf₀.length, 1, e₀.timestamp⟩ : PosA)) ::
              (compactLoopA rest old (nf₀ ++ [e₀])).1,
            (compactLoopA rest old (nf₀ ++ [e₀])).2.1,
            (compactLoopA rest old (nf₀ ++ [e₀])).2.2.1,
            (compactLoopA rest old (nf₀ ++ [e₀])).2.2.2) := by
        simp only [compactLoopA, hloc, if_pos ht₀.symm, hv, fileAppend]
        simp
      rw [hred]
      obtain ⟨h1, ⟨extra, h2⟩, h3, h4, h5⟩ := ihr (nf₀ ++ [e₀])
      have h2' : (compactLoopA rest old (nf₀ ++ [e₀])).2.1 =
          nf₀ ++ (e₀ :: extra) := by
        rw [h2]
        simp
      refine ⟨h1, ⟨e₀ :: extra, h2'⟩, by simp [h3], ?_, ?_⟩
      · intro k₀ hl
        simp only [lookupA] at hl
        by_cases hkk : k = k₀
        · rw [if_pos hkk] at hl
          cases hl
        · rw [if_neg hkk] at hl
          obtain ⟨hg1, hg2⟩ := h4 k₀ hl
          refine ⟨?_, hg2⟩
          simp only [lookupA, hkk, if_false]
          exact hg1
      · intro k₀ p₀ e₁ hl he₁
        simp only [lookupA] at hl
        by_cases hkk : k = k₀
        · subst hkk
          rw [if_pos rfl] at hl
          obtain rfl : p = p₀ := by
            cases hl
            rfl
          obtain rfl : e₀ = e₁ := by
            rw [he₀] at he₁
            cases he₁
            rfl
          refine ⟨fun hve => absurd hve hv, fun _ => ?_⟩
          refine ⟨⟨nf₀.length, 1, e₀.timestamp⟩, ?_, ?_, rfl, ?_⟩
          · simp [lookupA]
          · rw [h2']
            exact getElem?_append_cons nf₀ e₀ extra
          · have hknotin : lookupA rest k = none := by
              rw [lookupA_eq_none_iff]
              exact hnd.1
            exact (h4 k hknotin).2
        · rw [if_neg hkk] at hl
          obtain ⟨hg1, hg2⟩ := h5 k₀ p₀ e₁ hl he₁
          constructor
          · intro hve
            obtain ⟨ha, hb⟩ := hg1 hve
            refine ⟨?_, hb⟩
            simp only [lookupA, hkk, if_false]
            exact ha
          · intro hve
            obtain ⟨p', ha, hb, hc, hd⟩ := hg2 hve
            refine ⟨p', ?_, hb, hc, hd⟩
            simp only [lookupA, hkk, if_false]
            exact ha

end KvStore

theorem getA_eq_view (s : KvStore) (k : String) (h : InvA s) :
    KvStore.get s k = .ok (viewA s k) := by
  unfold KvStore.get viewA
  cases hl : lookupA s.index k with
  | none => rfl
  | some p =>
    obtain ⟨e, he, hk, ht⟩ := h.2 (k, p) (lookupA_mem _ _ _ hl)
    simp only at he
    simp only [locateA, he]
    by_cases hv : e.value = "" <;> simp [hv]

section AssocMem

variable {K V : Type} [DecidableEq K]

theorem mem_insertA (l : List (K × V)) (k : K) (v : V) (kp : K × V)
    (h : kp ∈ insertA l k v) : kp = (k, v) ∨ kp ∈ l := by
  induction l with
  | nil => simpa [insertA] using h
  | cons q r ih =>
    obtain ⟨a, b⟩ := q
    by_cases ha : a = k
    · simp only [insertA, ha, if_pos, List.mem_cons] at h
      rcases h with h1 | h2
      · exact Or.inl h1
      · exact Or.inr (List.mem_cons_of_mem _ h2)
    · simp only [insertA, ha, if_false, List.mem_cons] at h
      rcases h with h1 | h2
      · exact Or.inr (List.mem_cons.mpr (Or.inl h1))
      · rcases ih h2 with h3 | h4
        · exact Or.inl h3
        · exact Or.inr (List.mem_cons_of_mem _ h4)

end AssocMem

theorem getElem?_append_some {α : Type} (l t : List α) (n : Nat) (a : α)
    (h : l[n]? = some a) : (l ++ t)[n]? = some a := by
  induction l generalizing n with
  | nil => simp at h
  | cons x l ih =>
    cases n with
    | zero => simpa using h
    | succ n =>
      simp only [List.cons_append, List.getElem?_cons_succ] at h ⊢
      exact ih n h

/-- Appending a record and (over)writing its index entry preserves the
store invariant. -/
theorem inv_append_insert (s : KvStore) (k v : String) (ts : Int)
    (unc : Nat) (h : InvA s) :
    InvA ⟨insertA s.index k ⟨s.file.length, 1, ts⟩,
      s.file ++ [⟨k, v, ts⟩], unc⟩ := by
  constructor
  · exact nodup_insertA _ _ _ h.1
  · intro kp hmem
    rcases mem_insertA _ _ _ _ hmem with h1 | h2
    · subst h1
      exact ⟨⟨k, v, ts⟩, getElem?_append_cons s.file ⟨k, v, ts⟩ [], rfl, rfl⟩
    · obtain ⟨e, he, hek, het⟩ := h.2 kp h2
      exact ⟨e, getElem?_append_some _ _ _ _ he, hek, het⟩

/-- The served values after appending a record for `k` and pointing the
index at it: `k` now reads the new value (`none` for tombstones), other
keys are untouched. -/
theorem view_append_insert (s : KvStore) (k v : String) (ts : Int)
    (unc : Nat) (h : InvA s) (k₀ : String) :
    viewA ⟨insertA s.index k ⟨s.file.length, 1, ts⟩,
        s.file ++ [⟨k, v, ts⟩], unc⟩ k₀ =
      if k₀ = k then (if v = "" then none else some v) else viewA s k₀ := by
  unfold viewA
  by_cases hk : k₀ = k
  · rw [hk, if_pos rfl]
    dsimp only
    rw [lookupA_insertA_self]
    simp [getElem?_append_cons s.file ⟨k, v, ts⟩ []]
  · rw [if_neg hk]
    dsimp only
    rw [lookupA_insertA_ne _ _ _ _ (fun he => hk he.symm)]
    cases hsi : lookupA s.index k₀ with
    | none => rfl
    | some p =>
      obtain ⟨e, he, _, _⟩ := h.2 (k₀, p) (lookupA_mem _ _ _ hsi)
      simp only at he
      simp [getElem?_append_some _ _ _ _ he, he]

/-- Compaction of a well-formed single-file store succeeds, preserves the
invariant and serves exactly the same values. -/
theorem compactA_rel (s : KvStore) (h : InvA s) :
    (KvStore.compact s).2 = none ∧ InvA (KvStore.compact s).1 ∧
    ∀ k, viewA (KvStore.compact s).1 k = viewA s k := by
  have hspec := KvStore.compactLoopA_spec s.index s.file h.1 h.2 []
  unfold KvStore.compact
  split
  · rename_i idx nf removed heq
    rw [heq] at hspec
    dsimp only at hspec
    obtain ⟨_, ⟨extra, h2⟩, h3, h4, h5⟩ := hspec
    have hndidx : (idx.map Prod.fst).Nodup := by
      rw [h3]
      exact h.1
    refine ⟨rfl, ⟨?_, ?_⟩, ?_⟩
    · exact nodup_foldl_eraseA removed idx hndidx
    · intro kp hmem
      have hndfold := nodup_foldl_eraseA removed idx hndidx
      have hlk : lookupA (removed.foldl eraseA idx) kp.1 = some kp.2 :=
        lookupA_of_mem _ _ _ hndfold hmem
      rw [lookupA_foldl_eraseA removed idx kp.1 hndidx] at hlk
      by_cases hrm : kp.1 ∈ removed
      · rw [if_pos hrm] at hlk
        cases hlk
      · rw [if_neg hrm] at hlk
        cases hsi : lookupA s.index kp.1 with
        | none =>
          rw [(h4 kp.1 hsi).1] at hlk
          cases hlk
        | some p =>
          obtain ⟨e, he, hek, het⟩ := h.2 (kp.1, p) (lookupA_mem _ _ _ hsi)
          simp only at he hek het
          by_cases hve : e.value = ""
          · exact absurd ((h5 kp.1 p e hsi he).1 hve).2 hrm
          · obtain ⟨p', ha, hb, hc, _⟩ := (h5 kp.1 p e hsi he).2 hve
            rw [ha] at hlk
            obtain rfl : p' = kp.2 := by
              cases hlk
              rfl
            exact ⟨e, hb, hek, hc⟩
    · intro k
      show viewA ⟨removed.foldl eraseA idx, nf, 0⟩ k = viewA s k
      unfold viewA
      dsimp only
      rw [lookupA_foldl_eraseA removed idx k hndidx]
      cases hsi : lookupA s.index k with
      | none =>
        have h4' := h4 k hsi
        rw [if_neg h4'.2, h4'.1]
      | some p =>
        obtain ⟨e, he, hek, het⟩ := h.2 (k, p) (lookupA_mem _ _ _ hsi)
        simp only at he hek het
        by_cases hve : e.value = ""
        · have hts := (h5 k p e hsi he).1 hve
          rw [if_pos hts.2]
          simp [he, hve]
        · obtain ⟨p', ha, hb, _, hd⟩ := (h5 k p e hsi he).2 hve
          rw [if_neg hd, ha]
          simp [hb, he, hve]
  · rename_i idx nf removed er heq
    rw [heq] at hspec
    dsimp only at hspec
    cases hspec.1

/-- The simulation relation between a store and the claim's sequential
map: structural invariant, distinct map keys, and agreeing views. -/
def RelA (s : KvStore) (m : List (String × String)) : Prop :=
  InvA s ∧ (m.map Prod.fst).Nodup ∧ ∀ k, viewA s k = lookupA m k

theorem setA_rel (s : KvStore) (m : List (String × String))
    (k v : String) (ts : Int) (hrel : RelA s m) (hv : v ≠ "") :
    RelA (KvStore.set s k v ts).1 (insertA m k v) := by
  obtain ⟨hinv, hnd, hview⟩ := hrel
  have hset : KvStore.set s k v ts =
      (if COMPACTION_THRESHOLD_BYTES <
          (match lookupA s.index k with
            | some old => s.uncompacted_bytes + old.sz
            | none => s.uncompacted_bytes) then
        KvStore.compact ⟨insertA s.index k ⟨s.file.length, 1, ts⟩,
          s.file ++ [⟨k, v, ts⟩],
          (match lookupA s.index k with
            | some old => s.uncompacted_bytes + old.sz
            | none => s.uncompacted_bytes)⟩
      else (⟨insertA s.index k ⟨s.file.length, 1, ts⟩,
          s.file ++ [⟨k, v, ts⟩],
          (match lookupA s.index k with
            | some old => s.uncompacted_bytes + old.sz
            | none => s.uncompacted_bytes)⟩, none)) := rfl
  have hinv' := inv_append_insert s k v ts
      (match lookupA s.index k with
        | some old => s.uncompacted_bytes + old.sz
        | none => s.uncompacted_bytes) hinv
  have hview' : ∀ k₀, viewA ⟨insertA s.index k ⟨s.file.length, 1, ts⟩,
      s.file ++ [⟨k, v, ts⟩],
      (match lookupA s.index k with
        | some old => s.uncompacted_bytes + old.sz
        | none => s.uncompacted_bytes)⟩ k₀ =
      lookupA (insertA m k v) k₀ := by
    intro k₀
    rw [view_append_insert s k v ts _ hinv k₀]
    by_cases hk : k₀ = k
    · subst hk
      rw [if_pos rfl, if_neg hv, lookupA_insertA_self]
    · rw [if_neg hk, lookupA_insertA_ne _ _ _ _ (fun he => hk he.symm)]
      exact hview k₀
  rw [hset]
  split
  · have hc := compactA_rel _ hinv'
    exact ⟨hc.2.1, nodup_insertA _ _ _ hnd,
      fun k₀ => (hc.2.2 k₀).trans (hview' k₀)⟩
  · exact ⟨hinv', nodup_insertA _ _ _ hnd, hview'⟩

theorem removeA_rel (s : KvStore) (m : List (String × String))
    (k : String) (ts : Int) (hrel : RelA s m) :
    RelA (KvStore.remove s k ts).1 (eraseA m k) := by
  obtain ⟨hinv, hnd, hview⟩ := hrel
  by_cases hc : containsA s.index k
  · have hrem : KvStore.remove s k ts =
        (if COMPACTION_THRESHOLD_BYTES <
            (match lookupA s.index k with
              | some old => s.uncompacted_bytes + 1 + old.sz
              | none => s.uncompacted_bytes + 1) then
          KvStore.compact ⟨insertA s.index k ⟨s.file.length, 1, ts⟩,
            s.file ++ [⟨k, "", ts⟩],
            (match lookupA s.index k with
              | some old => s.uncompacted_bytes + 1 + old.sz
              | none => s.uncompacted_bytes + 1)⟩
        else (⟨insertA s.index k ⟨s.file.length, 1, ts⟩,
            s.file ++ [⟨k, "", ts⟩],
            (match lookupA s.index k with
              | some old => s.uncompacted_bytes + 1 + old.sz
              | none => s.uncompacted_bytes + 1)⟩, none)) := by
      unfold KvStore.remove
      rw [if_pos hc]
      rfl
    have hinv' := inv_append_insert s k "" ts
        (match lookupA s.index k with
          | some old => s.uncompacted_bytes + 1 + old.sz
          | none => s.uncompacted_bytes + 1) hinv
    have hview' : ∀ k₀, viewA ⟨insertA s.index k ⟨s.file.length, 1, ts⟩,
        s.file ++ [⟨k, "", ts⟩],
        (match lookupA s.index k with
          | some old => s.uncompacted_bytes + 1 + old.sz
          | none => s.uncompacted_bytes + 1)⟩ k₀ =
        lookupA (eraseA m k) k₀ := by
      intro k₀
      rw [view_append_insert s k "" ts _ hinv k₀]
      by_cases hk : k₀ = k
      · subst hk
        rw [if_pos rfl, if_pos rfl, lookupA_eraseA_self m k₀ hnd]
      · rw [if_neg hk, lookupA_eraseA_ne _ _ _ (fun he => hk he.symm)]
        exact hview k₀
    rw [hrem]
    split
    · have hcr := compactA_rel _ hinv'
      exact ⟨hcr.2.1, nodup_eraseA _ _ hnd,
        fun k₀ => (hcr.2.2 k₀).trans (hview' k₀)⟩
    · exact ⟨hinv', nodup_eraseA _ _ hnd, hview'⟩
  · have hrem : KvStore.remove s k ts = (s, some .NonexistentKey) := by
      unfold KvStore.remove
      rw [if_neg hc]
    have hlk : lookupA s.index k = none := by
      unfold containsA at hc
      cases hl : lookupA s.index k with
      | none => rfl
      | some p => rw [hl] at hc; simp at hc
    have hm : lookupA m k = none := by
      have := hview k
      unfold viewA at this
      rw [hlk] at this
      exact this.symm
    rw [hrem, eraseA_of_not_mem m k hm]
    exact ⟨hinv, hnd, hview⟩

/-- Stepping the store and the sequential map in lockstep preserves the
simulation, for sessions whose `set` values are non-empty. -/
theorem foldl_rel (ops : List OpA) (s : KvStore)
    (m : List (String × String)) (hrel : RelA s m)
    (hops : ops.all goodOp = true) :
    RelA (ops.foldl applyOp s) (ops.foldl specStep m) := by
  induction ops generalizing s m with
  | nil => exact hrel
  | cons op rest ih =>
    rw [List.all_cons, Bool.and_eq_true] at hops
    cases op with
    | setOp k v ts =>
      have hv : v ≠ "" := by
        have := hops.1
        simp only [goodOp, decide_eq_true_eq] at this
        exact this
      exact ih _ _ (setA_rel s m k v ts hrel hv) hops.2
    | rmOp k ts =>
      exact ih _ _ (removeA_rel s m k ts hrel) hops.2

/-- Counterexample to C1 as stated: after `set("k", "")` the claim
demands `get("k") = Some("")`, but the engine stores the empty value as a
tombstone and `get` returns `None`. -/
theorem claim_c1_counterexample :
    KvStore.get (execA [OpA.setOp "k" "" 0]) "k" = .ok none ∧
    specGet [OpA.setOp "k" "" 0] "k" = some "" := by
  exact ⟨by decide, by decide⟩

/-- C1 (amended).  For every session of `set`/`remove` operations on a
freshly opened store in which every `set` value is non-empty, a final
`get(k)` returns exactly the sequential-map result: the value of the last
`set(k, v)` not followed by a later `remove(k)`, and `None` otherwise.
(A `set` with the empty value is excluded: the engine encodes tombstones
as empty values, so such a `set` reads back as `None`.) -/
theorem claim_c1_last_write_wins (ops : List OpA) (k : String)
    (hops : ops.all goodOp = true) :
    KvStore.get (execA ops) k = .ok (specGet ops k) := by
  have hrel : RelA openFresh [] := by
    refine ⟨⟨List.nodup_nil, ?_⟩, List.nodup_nil, fun k₀ => rfl⟩
    intro kp hmem
    exact absurd hmem (List.not_mem_nil kp)
  have hfin := foldl_rel ops openFresh [] hrel hops
  have hget := getA_eq_view (execA ops) k hfin.1
  rw [hget]
  unfold execA specGet specMap
  rw [hfin.2.2 k]

/-- Witness for C1: overwrite, remove, then set again — the last write
wins. -/
theorem claim_c1_last_write_wins_witness :
    ([OpA.setOp "k" "v1" 0, OpA.setOp "k" "v2" 1, OpA.rmOp "k" 2,
        OpA.setOp "k" "v3" 3].all goodOp = true) ∧
    KvStore.get (execA [OpA.setOp "k" "v1" 0, OpA.setOp "k" "v2" 1,
        OpA.rmOp "k" 2, OpA.setOp "k" "v3" 3]) "k" = .ok (some "v3") := by
  refine ⟨by decide, ?_⟩
  have h := claim_c1_last_write_wins [OpA.setOp "k" "v1" 0,
      OpA.setOp "k" "v2" 1, OpA.rmOp "k" 2, OpA.setOp "k" "v3" 3] "k"
      (by decide)
  rw [h]
  decide

end Kvs
